import Mathlib

/-!
JunkOS cooperative scheduler: embedding of `junkos_scheduler.c`.

The scheduler keeps two intrusive singly linked lists of task descriptors
(`task_ready_head`, `task_blocked_head`).  The descriptors live in memory owned
by the caller; the only field the scheduler ever writes is `next`.

Embedding:
* a pointer to a task is `Option Nat` (`none` is `NULL`, `some a` is the address `a`);
  the element `tasks[i]` of a table at base address `b` has address `b + i`;
* memory is a total map from addresses to task descriptors;
* every C loop is a function with a fuel argument that returns `none` when the fuel
  runs out, so `none` means "the loop did not finish within `fuel` iterations";
* `uint8_t` ids and priorities are natural numbers (they are only compared); the
  8-bit loop counter of `junkos_scheduler_init` is incremented modulo `2^8`.
-/

namespace JunkOS

/-- Task descriptor `junkos_task_t`. `run = none` is a `NULL` callback. -/
structure junkos_task_t where
  next : Option Nat
  run : Option Nat
  id : Nat
  priority : Nat
  auto_run : Bool
deriving DecidableEq, Repr

/-- Memory holding the task descriptors, indexed by address. -/
abbrev Mem := Nat → junkos_task_t

/-- Scheduler context `junkos_scheduler_context_t`. -/
structure junkos_scheduler_context_t where
  task_table : Option Nat
  task_table_size : Nat
  task_ready_head : Option Nat
  task_blocked_head : Option Nat
deriving DecidableEq, Repr

/-- The initial value of `gbl_context`. -/
def gbl_context : junkos_scheduler_context_t :=
  { task_table := none, task_table_size := 0, task_ready_head := none, task_blocked_head := none }

/-- The store `a->next = n`. -/
def setNext (mem : Mem) (a : Nat) (n : Option Nat) : Mem :=
  fun b => if b = a then { mem b with next := n } else mem b

/-- The store `p->next = n` through a pointer variable. The scheduler never executes
it with `p == NULL` (`prev` is `NULL` only while `current == *head`). -/
def setNextP (mem : Mem) (p : Option Nat) (n : Option Nat) : Mem :=
  match p with
  | some a => setNext mem a n
  | none => mem

/-- The `while(current)` loop of `junkos_delete_task_from_list`.
Returns the found task (or `NULL`), the memory and `*head`. -/
def delete_loop : Nat → Mem → Option Nat → Nat → Option Nat → Option Nat →
    Option (Option Nat × Mem × Option Nat)
  | 0, _, _, _, _, _ => none
  | fuel + 1, mem, head, task_id, prev, current =>
    match current with
    | none => some (none, mem, head)
    | some cur =>
      if (mem cur).id = task_id then
        if current = head then
          some (some cur, setNext mem cur none, (mem cur).next)
        else
          some (some cur, setNext (setNextP mem prev (mem cur).next) cur none, head)
      else
        delete_loop fuel mem head task_id (some cur) (mem cur).next

/-- `junkos_delete_task_from_list(&head, task_id)`. -/
def junkos_delete_task_from_list (fuel : Nat) (mem : Mem) (head : Option Nat) (task_id : Nat) :
    Option (Option Nat × Mem × Option Nat) :=
  delete_loop fuel mem head task_id none head

/-- The `while(current)` loop of `junkos_put_task_on_list_in_priority_order` together with
the `if (!current)` statement that follows it. Returns the memory and `*head`. -/
def put_loop : Nat → Mem → Option Nat → Nat → Option Nat → Option Nat →
    Option (Mem × Option Nat)
  | 0, _, _, _, _, _ => none
  | fuel + 1, mem, head, task, prev, current =>
    match current with
    | none => some (setNext (setNextP mem prev (some task)) task none, head)
    | some cur =>
      if (mem cur).priority > (mem task).priority then
        if current = head then
          some (setNext mem task head, some task)
        else
          some (setNext (setNextP mem prev (some cur)) task (some cur), head)
      else
        put_loop fuel mem head task (some cur) (mem cur).next

/-- `junkos_put_task_on_list_in_priority_order(&head, task)`. -/
def junkos_put_task_on_list_in_priority_order (fuel : Nat) (mem : Mem) (head : Option Nat)
    (task : Nat) : Option (Mem × Option Nat) :=
  match head with
  | some _ => put_loop fuel mem head task none head
  | none => some (mem, some task)

/-- `junkos_pop_task_off_list_in_priority_order(&head)`: the popped task (or `NULL`),
the memory and `*head`. -/
def junkos_pop_task_off_list_in_priority_order (mem : Mem) (head : Option Nat) :
    Option Nat × Mem × Option Nat :=
  match head with
  | some task => (some task, setNext mem task none, (mem task).next)
  | none => (none, mem, none)

/-- The `for` loop of `junkos_scheduler_init`; `k` bounds the iterations of this loop and
`fuel` those of the insertion loop. The counter `task_index` is a `uint8_t`. -/
def init_loop (fuel : Nat) : Nat → Mem → junkos_scheduler_context_t → Nat → Nat → Nat →
    Option (Bool × Mem × junkos_scheduler_context_t)
  | 0, _, _, _, _, _ => none
  | k + 1, mem, context, tasks, num_tasks, task_index =>
    if task_index < num_tasks then
      if (mem (tasks + task_index)).run = none then
        some (false, mem, context)
      else
        let mem1 := setNext mem (tasks + task_index) none
        if (mem1 (tasks + task_index)).auto_run then
          match junkos_put_task_on_list_in_priority_order fuel mem1 context.task_ready_head
              (tasks + task_index) with
          | none => none
          | some (mem2, head) =>
            init_loop fuel k mem2 { context with task_ready_head := head } tasks num_tasks
              ((task_index + 1) % 256)
        else
          match junkos_put_task_on_list_in_priority_order fuel mem1 context.task_blocked_head
              (tasks + task_index) with
          | none => none
          | some (mem2, head) =>
            init_loop fuel k mem2 { context with task_blocked_head := head } tasks num_tasks
              ((task_index + 1) % 256)
    else
      some (true, mem, context)

/-- `junkos_scheduler_init(tasks, num_tasks)`: the returned flag, the memory and the context. -/
def junkos_scheduler_init (fuel : Nat) (mem : Mem) (context : junkos_scheduler_context_t)
    (tasks : Option Nat) (num_tasks : Nat) : Option (Bool × Mem × junkos_scheduler_context_t) :=
  match tasks with
  | none => some (false, mem, context)
  | some base =>
    if num_tasks = 0 then some (false, mem, context)
    else
      match init_loop fuel fuel mem
          { context with task_table := none, task_table_size := 0, task_ready_head := none,
                         task_blocked_head := none } base num_tasks 0 with
      | none => none
      | some (true, mem1, context1) =>
        some (true, mem1, { context1 with task_table := some base, task_table_size := num_tasks })
      | some (false, mem1, context1) =>
        some (false, mem1, { context1 with task_ready_head := none, task_blocked_head := none })

/-- `junkos_scheduler_set_task_runnable(task_id)`. -/
def junkos_scheduler_set_task_runnable (fuel : Nat) (mem : Mem)
    (context : junkos_scheduler_context_t) (task_id : Nat) :
    Option (Bool × Mem × junkos_scheduler_context_t) :=
  match junkos_delete_task_from_list fuel mem context.task_blocked_head task_id with
  | none => none
  | some (none, mem1, bhead) => some (false, mem1, { context with task_blocked_head := bhead })
  | some (some task, mem1, bhead) =>
    match junkos_put_task_on_list_in_priority_order fuel mem1 context.task_ready_head task with
    | none => none
    | some (mem2, rhead) =>
      some (true, mem2, { context with task_blocked_head := bhead, task_ready_head := rhead })

/-- The critical section of one iteration of the `while(true)` loop of `junkos_scheduler`:
the task selected for dispatch (or `NULL`), the memory and the context. -/
def junkos_scheduler_iteration (fuel : Nat) (mem : Mem) (context : junkos_scheduler_context_t) :
    Option (Option Nat × Mem × junkos_scheduler_context_t) :=
  match junkos_pop_task_off_list_in_priority_order mem context.task_ready_head with
  | (some task, mem1, rhead) =>
    match junkos_put_task_on_list_in_priority_order fuel mem1 context.task_blocked_head task with
    | none => none
    | some (mem2, bhead) =>
      some (some task, mem2, { context with task_ready_head := rhead, task_blocked_head := bhead })
  | (none, mem1, rhead) => some (none, mem1, { context with task_ready_head := rhead })

/-- What happens between two observations of the scheduler: the dispatch loop runs the
critical section of one iteration, or somebody (an interrupt handler, a callback) calls
`junkos_scheduler_set_task_runnable`. -/
inductive junkos_event where
  | dispatch
  | set_runnable (task_id : Nat)
deriving DecidableEq, Repr

/-- Runs a sequence of events. -/
def run_events (fuel : Nat) : List junkos_event → Mem → junkos_scheduler_context_t →
    Option (Mem × junkos_scheduler_context_t)
  | [], mem, context => some (mem, context)
  | junkos_event.dispatch :: evs, mem, context =>
    match junkos_scheduler_iteration fuel mem context with
    | none => none
    | some (_, mem1, context1) => run_events fuel evs mem1 context1
  | junkos_event.set_runnable task_id :: evs, mem, context =>
    match junkos_scheduler_set_task_runnable fuel mem context task_id with
    | none => none
    | some (_, mem1, context1) => run_events fuel evs mem1 context1

/-- The state reached by a successful `junkos_scheduler_init` followed by a sequence of
events (`none` when the initialisation fails or some loop runs out of fuel). -/
def junkos_run (fuel : Nat) (mem : Mem) (context : junkos_scheduler_context_t)
    (tasks : Option Nat) (num_tasks : Nat) (evs : List junkos_event) :
    Option (Mem × junkos_scheduler_context_t) :=
  match junkos_scheduler_init fuel mem context tasks num_tasks with
  | some (true, mem1, context1) => run_events fuel evs mem1 context1
  | _ => none

/-- The queue starting at `head`, as the list of the addresses of its tasks
(`none` when no `NULL` link is reached within `fuel` steps). -/
def queue : Nat → Mem → Option Nat → Option (List Nat)
  | 0, _, _ => none
  | _ + 1, _, none => some []
  | fuel + 1, mem, some a => (queue fuel mem (mem a).next).map (a :: ·)

/-- `IsList mem head l`: following the `next` links from `head` visits exactly the
addresses of `l`, in order, and then reaches `NULL`. -/
def IsList (mem : Mem) : Option Nat → List Nat → Prop
  | head, [] => head = none
  | head, a :: l => head = some a ∧ IsList mem (mem a).next l

instance IsList.instDecidable (mem : Mem) : (head : Option Nat) → (l : List Nat) →
    Decidable (IsList mem head l)
  | head, [] => inferInstanceAs (Decidable (head = none))
  | head, a :: l =>
    have := IsList.instDecidable mem (mem a).next l
    inferInstanceAs (Decidable (head = some a ∧ IsList mem (mem a).next l))

/-- Memory built from a table placed at address 0. -/
def memOfTable (table : List junkos_task_t) : Mem :=
  fun a => table.getD a { next := none, run := none, id := 0, priority := 0, auto_run := false }

/-- The task table of `main.c`. -/
def junkos_tasks : List junkos_task_t :=
  [ { next := none, run := some 1, id := 1, priority := 1, auto_run := true },
    { next := none, run := some 2, id := 2, priority := 1, auto_run := false } ]

/-- Inserts the tasks of a list, one after another, with
`junkos_put_task_on_list_in_priority_order`. -/
def put_all (fuel : Nat) : List Nat → Mem → Option Nat → Option (Mem × Option Nat)
  | [], mem, head => some (mem, head)
  | t :: ts, mem, head =>
    match junkos_put_task_on_list_in_priority_order fuel mem head t with
    | none => none
    | some (mem1, head1) => put_all fuel ts mem1 head1

/-- Pops with `junkos_pop_task_off_list_in_priority_order` until it returns `NULL`;
the popped tasks, in the order of the pops. -/
def pop_all : Nat → Mem → Option Nat → Option (List Nat)
  | 0, _, _ => none
  | fuel + 1, mem, head =>
    match junkos_pop_task_off_list_in_priority_order mem head with
    | (some t, mem1, head1) => (pop_all fuel mem1 head1).map (t :: ·)
    | (none, _, _) => some []

/-- Both queues of a scheduler state: the ready queue, then the blocked queue. -/
def queues (fuel : Nat) (mem : Mem) (context : junkos_scheduler_context_t) :
    Option (List Nat) × Option (List Nat) :=
  (queue fuel mem context.task_ready_head, queue fuel mem context.task_blocked_head)

/-- A descriptor with a callback, not linked anywhere. -/
def mk_task (id priority : Nat) (auto_run : Bool) : junkos_task_t :=
  { next := none, run := some id, id := id, priority := priority, auto_run := auto_run }

/-- Three ready tasks of priorities 1, 3, 2, ids 10, 11, 12. -/
def table_ready_1_3_2 : List junkos_task_t :=
  [mk_task 10 1 true, mk_task 11 3 true, mk_task 12 2 true]

/-- Ready tasks of priorities 1 and 3 and a blocked task of priority 2. -/
def table_blocked_middle : List junkos_task_t :=
  [mk_task 10 1 true, mk_task 11 3 true, mk_task 12 2 false]

/-- Blocked tasks of priorities 1 and 3 and a ready task of priority 2. -/
def table_ready_middle : List junkos_task_t :=
  [mk_task 10 1 false, mk_task 11 2 true, mk_task 12 3 false]

/-- Four tasks of priorities 3, 1, 2, 1 (the example of the specification). -/
def table_3_1_2_1 : List junkos_task_t :=
  [mk_task 10 3 true, mk_task 11 1 true, mk_task 12 2 true, mk_task 13 1 true]

/-- A queue `[0, 1]` of priorities 1 and 3 already linked, and a free task of priority 2. -/
def table_linked_1_3 : List junkos_task_t :=
  [{ mk_task 10 1 true with next := some 1 }, mk_task 11 3 true, mk_task 12 2 true]

/-- A table whose second descriptor has no callback. -/
def table_null_run : List junkos_task_t :=
  [mk_task 10 1 true, { mk_task 11 1 true with run := none }]

/-- The state after `junkos_scheduler_init` on the table of `main.c`, one dispatch-loop
iteration and a `junkos_scheduler_set_task_runnable(JUNKOS_TASK_LED)` call. -/
def main_state : Mem × junkos_scheduler_context_t :=
  (junkos_run 5 (memOfTable junkos_tasks) gbl_context (some 0) 2
    [junkos_event.dispatch, junkos_event.set_runnable 2]).getD
    (memOfTable junkos_tasks, gbl_context)

/-- The descriptor without its link: the fields the scheduler never writes. -/
def descr (t : junkos_task_t) : junkos_task_t := { t with next := none }

/-- `SameData mem mem'`: the two memories differ at most in `next` fields. -/
def SameData (mem mem' : Mem) : Prop := ∀ a, descr (mem' a) = descr (mem a)

/-- `IsSeg mem head l stop`: following the `next` links from `head` visits exactly the
addresses of `l`, in order, and then arrives at `stop`. -/
def IsSeg (mem : Mem) : Option Nat → List Nat → Option Nat → Prop
  | head, [], stop => head = stop
  | head, a :: l, stop => head = some a ∧ IsSeg mem (mem a).next l stop

/-- Priorities do not decrease from the head of the list to its tail. -/
def Ascending (mem : Mem) (l : List Nat) : Prop :=
  l.Pairwise (fun a b => (mem a).priority ≤ (mem b).priority)

instance Ascending.instDecidable (mem : Mem) (l : List Nat) : Decidable (Ascending mem l) :=
  inferInstanceAs (Decidable (l.Pairwise (fun a b => (mem a).priority ≤ (mem b).priority)))

/-- The effect of `junkos_put_task_on_list_in_priority_order` on the list of a queue, as the
code computes it: the task goes in front when the head is less urgent, at the tail when
no task is less urgent, and the list is left as it was when the first less urgent task is
not the head. -/
def put_effect (mem : Mem) (task : Nat) : List Nat → List Nat
  | [] => [task]
  | a :: l =>
    if (mem a).priority > (mem task).priority then task :: a :: l
    else if l.any (fun b => decide ((mem b).priority > (mem task).priority)) then a :: l
    else a :: l ++ [task]

/-- The test `current->id == task_id` of `junkos_delete_task_from_list`. -/
def hasId (mem : Mem) (task_id : Nat) (a : Nat) : Bool := decide ((mem a).id = task_id)

/-- The test `current->priority > task->priority` of
`junkos_put_task_on_list_in_priority_order`. -/
def lessUrgent (mem : Mem) (task : Nat) (a : Nat) : Bool :=
  decide ((mem a).priority > (mem task).priority)

/-- The state of two queues of tasks of a table of `n` descriptors at address `base`:
both are `NULL`-terminated lists, no task is linked twice, priorities ascend. -/
structure Queues (base n : Nat) (mem : Mem) (h₁ h₂ : Option Nat) (l₁ l₂ : List Nat) : Prop where
  first : IsList mem h₁ l₁
  second : IsList mem h₂ l₂
  nodup : (l₁ ++ l₂).Nodup
  asc₁ : Ascending mem l₁
  asc₂ : Ascending mem l₂
  inTable : ∀ a ∈ l₁ ++ l₂, base ≤ a ∧ a < base + n

/-- The ready list after `junkos_scheduler_set_task_runnable`, as the code computes it. -/
def ready_after_set_runnable (mem : Mem) (task_id : Nat) (ready blocked : List Nat) : List Nat :=
  match blocked.find? (hasId mem task_id) with
  | some t => put_effect mem t ready
  | none => ready

/-- The blocked list after one dispatch-loop iteration, as the code computes it. -/
def blocked_after_iteration (mem : Mem) (ready blocked : List Nat) : List Nat :=
  match ready.head? with
  | some t => put_effect mem t blocked
  | none => blocked

/-- Runs the critical section of `k` consecutive dispatch-loop iterations, with no
`junkos_scheduler_set_task_runnable` call in between; the tasks selected (`none` for an
iteration that selects no task), in order, and the final state. -/
def dispatch_iterations (fuel : Nat) : Nat → Mem → junkos_scheduler_context_t →
    Option (List (Option Nat) × Mem × junkos_scheduler_context_t)
  | 0, mem, context => some ([], mem, context)
  | k + 1, mem, context =>
    match junkos_scheduler_iteration fuel mem context with
    | none => none
    | some (t, mem1, context1) =>
      match dispatch_iterations fuel k mem1 context1 with
      | none => none
      | some (ts, mem2, context2) => some (t :: ts, mem2, context2)

/-- The table of `main.c` followed by a descriptor without callback. -/
def table_main_then_null : List junkos_task_t :=
  junkos_tasks ++ [{ mk_task 3 1 true with run := none }]

/-- A memory full of descriptors with callbacks, ids `0 .. 255` repeating, priority 1. -/
def mem_all_valid : Mem :=
  fun a => { next := none, run := some 1, id := a % 256, priority := 1, auto_run := true }

/-- The state of the two queues of a table whose descriptors all have priority `p`: the
queues are well formed and every descriptor of the table is on one of them. -/
structure Covered (base n p : Nat) (mem : Mem) (h₁ h₂ : Option Nat) (l₁ l₂ : List Nat) :
    Prop where
  queues : Queues base n mem h₁ h₂ l₁ l₂
  prio : ∀ j, j < n → (mem (base + j)).priority = p
  all : ∀ j, j < n → base + j ∈ l₁ ++ l₂

/-- A ready queue `[0, 1]` of two tasks of priority 1, already linked, and a blocked task. -/
def table_two_ready : List junkos_task_t :=
  [{ mk_task 10 1 true with next := some 1 }, mk_task 11 1 true, mk_task 12 2 false]

/-- A table of five descriptors: ready tasks of priorities 2, 3, 5 (ids 10, 11, 12) and
blocked tasks of priorities 3, 4 (ids 13, 14). -/
def table_five : List junkos_task_t :=
  [mk_task 10 2 true, mk_task 11 3 true, mk_task 12 5 true, mk_task 13 3 false,
    mk_task 14 4 false]

/-- A dispatch-loop iteration, a `junkos_scheduler_set_task_runnable(10)` call and a second
dispatch-loop iteration. -/
def five_events : List junkos_event :=
  [junkos_event.dispatch, junkos_event.set_runnable 10, junkos_event.dispatch]

/-- The state after `junkos_scheduler_init` on `table_five` and the events `five_events`:
the ready queue is `[1, 2]` (priorities 3, 5), the blocked queue `[0, 3, 4]`
(priorities 2, 3, 4). -/
def five_state : Mem × junkos_scheduler_context_t :=
  (junkos_run 8 (memOfTable table_five) gbl_context (some 0) 5 five_events).getD
    (memOfTable table_five, gbl_context)

/-- A queue `[0, 1, 2]` of priorities 1, 3, 4 (ids 10, 11, 12) already linked, and a free
task of priority 5. -/
def table_linked_three : List junkos_task_t :=
  [{ mk_task 10 1 true with next := some 1 }, { mk_task 11 3 true with next := some 2 },
    mk_task 12 4 true, mk_task 13 5 true]

/-! ## Memory and list lemmas -/

@[simp] theorem setNext_next_same (mem : Mem) (a : Nat) (n : Option Nat) :
    (setNext mem a n a).next = n := by
  simp [setNext]

theorem setNext_ne (mem : Mem) {a b : Nat} (n : Option Nat) (h : b ≠ a) :
    setNext mem a n b = mem b := by
  simp [setNext, h]

@[simp] theorem descr_setNext (mem : Mem) (a b : Nat) (n : Option Nat) :
    descr (setNext mem a n b) = descr (mem b) := by
  unfold setNext
  split <;> simp [descr]

theorem setNext_self (mem : Mem) (a : Nat) (n : Option Nat) (h : (mem a).next = n) :
    setNext mem a n = mem := by
  funext b
  unfold setNext
  split
  · next hb => subst hb; subst h; rfl
  · rfl

theorem SameData.refl (mem : Mem) : SameData mem mem := fun _ => rfl

theorem SameData.trans {m₁ m₂ m₃ : Mem} (h₁ : SameData m₁ m₂) (h₂ : SameData m₂ m₃) :
    SameData m₁ m₃ := fun a => (h₂ a).trans (h₁ a)

theorem SameData.setNext {m₁ m₂ : Mem} (h : SameData m₁ m₂) (a : Nat) (n : Option Nat) :
    SameData m₁ (setNext m₂ a n) := fun b => (descr_setNext m₂ a b n).trans (h b)

theorem SameData.priority {m₁ m₂ : Mem} (h : SameData m₁ m₂) (a : Nat) :
    (m₂ a).priority = (m₁ a).priority := by
  simpa [descr] using congrArg junkos_task_t.priority (h a)

theorem SameData.id {m₁ m₂ : Mem} (h : SameData m₁ m₂) (a : Nat) :
    (m₂ a).id = (m₁ a).id := by
  simpa [descr] using congrArg junkos_task_t.id (h a)

theorem SameData.run {m₁ m₂ : Mem} (h : SameData m₁ m₂) (a : Nat) :
    (m₂ a).run = (m₁ a).run := by
  simpa [descr] using congrArg junkos_task_t.run (h a)

theorem SameData.auto_run {m₁ m₂ : Mem} (h : SameData m₁ m₂) (a : Nat) :
    (m₂ a).auto_run = (m₁ a).auto_run := by
  simpa [descr] using congrArg junkos_task_t.auto_run (h a)

theorem isList_iff_isSeg (mem : Mem) (head : Option Nat) (l : List Nat) :
    IsList mem head l ↔ IsSeg mem head l none := by
  induction l generalizing head with
  | nil => simp [IsList, IsSeg]
  | cons a l ih => simp [IsList, IsSeg, ih]

theorem isSeg_append (mem : Mem) (head stop : Option Nat) (l₁ l₂ : List Nat) :
    IsSeg mem head (l₁ ++ l₂) stop ↔ ∃ mid, IsSeg mem head l₁ mid ∧ IsSeg mem mid l₂ stop := by
  induction l₁ generalizing head with
  | nil => simp [IsSeg]
  | cons a l ih =>
    show (head = some a ∧ IsSeg mem (mem a).next (l ++ l₂) stop) ↔
      ∃ mid, (head = some a ∧ IsSeg mem (mem a).next l mid) ∧ IsSeg mem mid l₂ stop
    rw [ih]
    constructor
    · rintro ⟨h, mid, h₁, h₂⟩
      exact ⟨mid, ⟨h, h₁⟩, h₂⟩
    · rintro ⟨mid, ⟨h, h₁⟩, h₂⟩
      exact ⟨h, mid, h₁, h₂⟩

theorem isList_append (mem : Mem) (head : Option Nat) (l₁ l₂ : List Nat) :
    IsList mem head (l₁ ++ l₂) ↔ ∃ mid, IsSeg mem head l₁ mid ∧ IsList mem mid l₂ := by
  simp only [isList_iff_isSeg, isSeg_append]

theorem IsSeg.preserved {mem mem' : Mem} {head stop : Option Nat} {l : List Nat}
    (h : IsSeg mem head l stop) (hf : ∀ a ∈ l, (mem' a).next = (mem a).next) :
    IsSeg mem' head l stop := by
  induction l generalizing head with
  | nil => exact h
  | cons a l ih =>
    refine ⟨h.1, ?_⟩
    rw [hf a (List.mem_cons_self a l)]
    exact ih h.2 (fun b hb => hf b (List.mem_cons_of_mem a hb))

theorem IsList.frame {mem mem' : Mem} {head : Option Nat} {l : List Nat}
    (h : IsList mem head l) (hf : ∀ a ∈ l, (mem' a).next = (mem a).next) :
    IsList mem' head l :=
  (isList_iff_isSeg mem' head l).2 (((isList_iff_isSeg mem head l).1 h).preserved hf)

theorem IsList.unique {mem : Mem} {head : Option Nat} {l₁ l₂ : List Nat}
    (h₁ : IsList mem head l₁) (h₂ : IsList mem head l₂) : l₁ = l₂ := by
  induction l₁ generalizing head l₂ with
  | nil =>
    cases l₂ with
    | nil => rfl
    | cons b l₂ =>
      have e₁ : head = none := h₁
      have e₂ : head = some b := h₂.1
      rw [e₁] at e₂
      cases e₂
  | cons a l₁ ih =>
    cases l₂ with
    | nil =>
      have e₁ : head = some a := h₁.1
      have e₂ : head = none := h₂
      rw [e₁] at e₂
      cases e₂
    | cons b l₂ =>
      have e₁ : head = some a := h₁.1
      have e₂ : head = some b := h₂.1
      rw [e₁] at e₂
      cases e₂
      rw [ih h₁.2 h₂.2]

theorem IsList.suffix {mem : Mem} {head : Option Nat} {l₁ l₂ : List Nat} {a : Nat}
    (h : IsList mem head (l₁ ++ a :: l₂)) : IsList mem (mem a).next l₂ := by
  induction l₁ generalizing head with
  | nil => exact h.2
  | cons b l₁ ih => exact ih h.2

theorem IsList.nodup {mem : Mem} {head : Option Nat} {l : List Nat}
    (h : IsList mem head l) : l.Nodup := by
  induction l generalizing head with
  | nil => exact List.nodup_nil
  | cons a l ih =>
    refine List.nodup_cons.2 ⟨?_, ih h.2⟩
    intro ha
    obtain ⟨s, t, rfl⟩ := List.append_of_mem ha
    have h₁ : IsList mem (mem a).next t := IsList.suffix h.2
    have e := IsList.unique h.2 h₁
    have := congrArg List.length e
    simp at this
    omega

theorem queue_of_isList {mem : Mem} {head : Option Nat} {l : List Nat}
    (h : IsList mem head l) (fuel : Nat) (hf : l.length < fuel) : queue fuel mem head = some l := by
  induction l generalizing head fuel with
  | nil =>
    have e : head = none := h
    subst e
    cases fuel with
    | zero => simp at hf
    | succ f => rfl
  | cons a l ih =>
    have e : head = some a := h.1
    subst e
    cases fuel with
    | zero => simp at hf
    | succ f =>
      simp only [queue]
      rw [ih h.2 f (by simpa using hf)]
      rfl

theorem isList_of_queue {mem : Mem} {head : Option Nat} {l : List Nat} {fuel : Nat}
    (h : queue fuel mem head = some l) : IsList mem head l := by
  induction fuel generalizing head l with
  | zero => simp [queue] at h
  | succ f ih =>
    cases head with
    | none =>
      simp only [queue, Option.some.injEq] at h
      subst h
      rfl
    | some a =>
      simp only [queue, Option.map_eq_some'] at h
      obtain ⟨l', hl', rfl⟩ := h
      exact ⟨rfl, ih hl'⟩

/-! ## Removal by id -/

theorem IsList.head_ne {mem : Mem} {head : Option Nat} {l₁ l₂ : List Nat} {p c : Nat}
    (h : IsList mem head (l₁ ++ p :: l₂)) (hc : c ∈ l₂) : some c ≠ head := by
  intro e
  have hnd := h.nodup
  cases l₁ with
  | nil =>
    have e₁ : head = some p := h.1
    rw [e₁] at e
    cases e
    exact (List.nodup_cons.1 hnd).1 hc
  | cons b l₁ =>
    have e₁ : head = some b := h.1
    rw [e₁] at e
    cases e
    exact (List.nodup_cons.1 hnd).1 (List.mem_append_right _ (List.mem_cons_of_mem _ hc))

theorem delete_loop_spec (mem : Mem) (head : Option Nat) (task_id : Nat) :
    ∀ (l₂ l₁ : List Nat) (p fuel : Nat),
      IsList mem head (l₁ ++ p :: l₂) → l₂.length < fuel →
      ∃ mem', delete_loop fuel mem head task_id (some p) (mem p).next
          = some (l₂.find? (hasId mem task_id), mem', head) ∧
        IsList mem' head (l₁ ++ p :: l₂.eraseP (hasId mem task_id)) ∧
        (∀ a, l₂.find? (hasId mem task_id) = some a → (mem' a).next = none) ∧
        (l₂.find? (hasId mem task_id) = none → mem' = mem) ∧
        SameData mem mem' ∧ (∀ b, b ∉ l₁ ++ p :: l₂ → mem' b = mem b) := by
  intro l₂
  induction l₂ with
  | nil =>
    intro l₁ p fuel h hf
    have hp : (mem p).next = none := h.suffix
    cases fuel with
    | zero => simp at hf
    | succ f =>
      refine ⟨mem, ?_, h, ?_, fun _ => rfl, SameData.refl mem, fun _ _ => rfl⟩
      · rw [hp]; rfl
      · intro a ha; simp at ha
  | cons c l₂ ih =>
    intro l₁ p fuel h hf
    have hs : IsList mem (mem p).next (c :: l₂) := h.suffix
    have hp : (mem p).next = some c := hs.1
    have hnd := h.nodup
    cases fuel with
    | zero => simp at hf
    | succ f =>
      have hf' : l₂.length < f := by simpa using hf
      rw [hp]
      by_cases hid : (mem c).id = task_id
      · have hq : hasId mem task_id c = true := by simp [hasId, hid]
        have hne : some c ≠ head := h.head_ne (List.mem_cons_self c l₂)
        have hpc : p ≠ c := by
          intro e
          have := (List.nodup_append.1 hnd).2.1
          rw [e] at this
          exact (List.nodup_cons.1 this).1 (List.mem_cons_self c l₂)
        have hnd₂ : (p :: c :: l₂).Nodup := (List.nodup_append.1 hnd).2.1
        have hdisj := (List.nodup_append.1 hnd).2.2
        refine ⟨setNext (setNext mem p (mem c).next) c none, ?_, ?_, ?_, ?_, ?_, ?_⟩
        · simp [delete_loop, hid, hne, setNextP, List.find?, hq]
        · rw [List.eraseP_cons_of_pos hq]
          obtain ⟨mid, hseg, hl⟩ := (isList_append mem head l₁ (p :: c :: l₂)).1 h
          refine (isList_append _ head l₁ (p :: l₂)).2 ⟨mid, hseg.preserved ?_, hl.1, ?_⟩
          · intro a ha
            have hap : a ≠ p := fun e => hdisj ha (e ▸ List.mem_cons_self p _)
            have hac : a ≠ c := by
              rintro rfl
              exact hdisj ha (by simp)
            rw [setNext_ne _ _ hac, setNext_ne _ _ hap]
          · rw [setNext_ne _ _ hpc, setNext_next_same]
            refine hs.2.frame ?_
            intro a ha
            have hap : a ≠ p := fun e =>
              (List.nodup_cons.1 hnd₂).1 (e ▸ List.mem_cons_of_mem c ha)
            have hac : a ≠ c := fun e =>
              (List.nodup_cons.1 (List.nodup_cons.1 hnd₂).2).1 (e ▸ ha)
            rw [setNext_ne _ _ hac, setNext_ne _ _ hap]
        · intro a _
          simp only [List.find?, hq, Option.some.injEq] at *
          subst_vars
          simp
        · intro hn; simp [List.find?, hq] at hn
        · exact ((SameData.refl mem).setNext p _).setNext c _
        · intro b hb
          have hbp : b ≠ p := by
            rintro rfl
            exact hb (by simp)
          have hbc : b ≠ c := by
            rintro rfl
            exact hb (by simp)
          rw [setNext_ne _ _ hbc, setNext_ne _ _ hbp]
      · have hq : hasId mem task_id c = false := by simp [hasId, hid]
        have h' : IsList mem head ((l₁ ++ [p]) ++ c :: l₂) := by simpa using h
        obtain ⟨mem', e, hl, hfound, hnone, hsd, hfr⟩ := ih (l₁ ++ [p]) c f h' hf'
        refine ⟨mem', ?_, ?_, ?_, ?_, hsd, ?_⟩
        · simp only [delete_loop, hid, if_false]
          rw [e]
          simp [List.find?, hq]
        · rw [List.eraseP_cons_of_neg (by simp [hq])]
          simpa using hl
        · intro a ha
          apply hfound
          simpa [List.find?, hq] using ha
        · intro hn
          apply hnone
          simpa [List.find?, hq] using hn
        · intro b hb
          apply hfr
          simpa using hb

theorem delete_spec (fuel : Nat) (mem : Mem) (head : Option Nat) (task_id : Nat) (l : List Nat)
    (h : IsList mem head l) (hf : l.length < fuel) :
    ∃ mem' head', junkos_delete_task_from_list fuel mem head task_id
        = some (l.find? (hasId mem task_id), mem', head') ∧
      IsList mem' head' (l.eraseP (hasId mem task_id)) ∧
      (∀ a, l.find? (hasId mem task_id) = some a → (mem' a).next = none) ∧
      (l.find? (hasId mem task_id) = none → mem' = mem ∧ head' = head) ∧
      SameData mem mem' ∧ (∀ b, b ∉ l → mem' b = mem b) := by
  cases l with
  | nil =>
    have e : head = none := h
    subst e
    cases fuel with
    | zero => simp at hf
    | succ f =>
      exact ⟨mem, none, rfl, h, by simp, fun _ => ⟨rfl, rfl⟩, SameData.refl mem, fun _ _ => rfl⟩
  | cons a l =>
    have e : head = some a := h.1
    subst e
    have hnd := h.nodup
    cases fuel with
    | zero => simp at hf
    | succ f =>
      have hf' : l.length < f := by simpa using hf
      by_cases hid : (mem a).id = task_id
      · have hq : hasId mem task_id a = true := by simp [hasId, hid]
        refine ⟨setNext mem a none, (mem a).next, ?_, ?_, ?_, ?_, ?_, ?_⟩
        · simp [junkos_delete_task_from_list, delete_loop, hid, List.find?, hq]
        · rw [List.eraseP_cons_of_pos hq]
          refine h.2.frame ?_
          intro b hb
          have hba : b ≠ a := fun e => (List.nodup_cons.1 hnd).1 (e ▸ hb)
          rw [setNext_ne _ _ hba]
        · intro b hb
          simp only [List.find?, hq, Option.some.injEq] at hb
          subst hb
          simp
        · intro hn; simp [List.find?, hq] at hn
        · exact (SameData.refl mem).setNext a _
        · intro b hb
          have hba : b ≠ a := fun e => hb (e ▸ List.mem_cons_self a l)
          rw [setNext_ne _ _ hba]
      · have hq : hasId mem task_id a = false := by simp [hasId, hid]
        obtain ⟨mem', e, hl, hfound, hnone, hsd, hfr⟩ :=
          delete_loop_spec mem (some a) task_id l [] a f (by simpa using h) hf'
        refine ⟨mem', some a, ?_, ?_, ?_, ?_, hsd, ?_⟩
        · simp only [junkos_delete_task_from_list, delete_loop, hid, if_false]
          rw [e]
          simp [List.find?, hq]
        · rw [List.eraseP_cons_of_neg (by simp [hq])]
          simpa using hl
        · intro b hb
          apply hfound
          simpa [List.find?, hq] using hb
        · intro hn
          refine ⟨hnone ?_, rfl⟩
          simpa [List.find?, hq] using hn
        · intro b hb
          apply hfr
          simpa using hb

/-! ## Insertion in priority order -/

theorem put_effect_cons (mem : Mem) (task a : Nat) (l : List Nat) :
    put_effect mem task (a :: l) =
      if lessUrgent mem task a = true then task :: a :: l
      else if l.any (lessUrgent mem task) = true then a :: l else a :: l ++ [task] := by
  simp [put_effect, lessUrgent]

theorem put_loop_spec (mem : Mem) (head : Option Nat) (task : Nat) :
    ∀ (l₂ l₁ : List Nat) (p fuel : Nat),
      IsList mem head (l₁ ++ p :: l₂) → task ∉ l₁ ++ p :: l₂ → l₂.length < fuel →
      ∃ mem', put_loop fuel mem head task (some p) (mem p).next = some (mem', head) ∧
        IsList mem' head
          (if l₂.any (lessUrgent mem task) = true then l₁ ++ p :: l₂
            else l₁ ++ p :: l₂ ++ [task]) ∧
        SameData mem mem' ∧ (∀ b, b ∉ l₁ ++ p :: l₂ → b ≠ task → mem' b = mem b) := by
  intro l₂
  induction l₂ with
  | nil =>
    intro l₁ p fuel h ht hf
    have hp : (mem p).next = none := h.suffix
    have hnd := h.nodup
    cases fuel with
    | zero => simp at hf
    | succ f =>
      have htp : p ≠ task := by
        rintro rfl
        exact ht (by simp)
      refine ⟨setNext (setNext mem p (some task)) task none, ?_, ?_, ?_, ?_⟩
      · rw [hp]; rfl
      · simp only [List.any_nil, Bool.false_eq_true, if_false]
        obtain ⟨mid, hseg, hl⟩ := (isList_append mem head l₁ [p]).1 h
        rw [List.append_assoc]
        refine (isList_append _ head l₁ ([p] ++ [task])).2 ⟨mid, hseg.preserved ?_, hl.1, ?_, ?_⟩
        · intro a ha
          have hap : a ≠ p := by
            rintro rfl
            exact (List.nodup_append.1 hnd).2.2 ha (by simp)
          have hat : a ≠ task := by
            rintro rfl
            exact ht (by simp [ha])
          rw [setNext_ne _ _ hat, setNext_ne _ _ hap]
        · rw [setNext_ne _ _ htp, setNext_next_same]
        · show (setNext (setNext mem p (some task)) task none task).next = none
          rw [setNext_next_same]
      · exact ((SameData.refl mem).setNext p _).setNext task _
      · intro b hb hbt
        have hbp : b ≠ p := by
          rintro rfl
          exact hb (by simp)
        rw [setNext_ne _ _ hbt, setNext_ne _ _ hbp]
  | cons c l₂ ih =>
    intro l₁ p fuel h ht hf
    have hs : IsList mem (mem p).next (c :: l₂) := h.suffix
    have hp : (mem p).next = some c := hs.1
    cases fuel with
    | zero => simp at hf
    | succ f =>
      have hf' : l₂.length < f := by simpa using hf
      rw [hp]
      by_cases hpr : (mem c).priority > (mem task).priority
      · have hq : lessUrgent mem task c = true := by simp [lessUrgent, hpr]
        have hne : some c ≠ head := h.head_ne (List.mem_cons_self c l₂)
        refine ⟨setNext mem task (some c), ?_, ?_, ?_, ?_⟩
        · simp only [put_loop, hpr, if_true, hne, if_false, setNextP]
          rw [setNext_self mem p (some c) hp]
        · simp only [List.any_cons, hq, Bool.true_or, if_true]
          refine h.frame ?_
          intro a ha
          have hat : a ≠ task := by
            rintro rfl
            exact ht ha
          rw [setNext_ne _ _ hat]
        · exact (SameData.refl mem).setNext task _
        · intro b _ hbt
          rw [setNext_ne _ _ hbt]
      · have hq : lessUrgent mem task c = false := by simp [lessUrgent, hpr]
        have h' : IsList mem head ((l₁ ++ [p]) ++ c :: l₂) := by simpa using h
        have ht' : task ∉ (l₁ ++ [p]) ++ c :: l₂ := by simpa using ht
        obtain ⟨mem', e, hl, hsd, hfr⟩ := ih (l₁ ++ [p]) c f h' ht' hf'
        refine ⟨mem', ?_, ?_, hsd, ?_⟩
        · simp only [put_loop, hpr, if_false]
          rw [e]
        · simpa [List.any_cons, hq] using hl
        · intro b hb hbt
          apply hfr _ _ hbt
          simpa using hb

theorem put_spec (fuel : Nat) (mem : Mem) (head : Option Nat) (task : Nat) (l : List Nat)
    (h : IsList mem head l) (ht : task ∉ l) (hn : (mem task).next = none)
    (hf : l.length < fuel) :
    ∃ mem' head', junkos_put_task_on_list_in_priority_order fuel mem head task
        = some (mem', head') ∧
      IsList mem' head' (put_effect mem task l) ∧
      SameData mem mem' ∧ (∀ b, b ∉ l → b ≠ task → mem' b = mem b) := by
  cases l with
  | nil =>
    have e : head = none := h
    subst e
    exact ⟨mem, some task, rfl, ⟨rfl, hn⟩, SameData.refl mem, fun _ _ _ => rfl⟩
  | cons a l =>
    have e : head = some a := h.1
    subst e
    cases fuel with
    | zero => simp at hf
    | succ f =>
      have hf' : l.length < f := by simpa using hf
      rw [put_effect_cons]
      by_cases hpr : (mem a).priority > (mem task).priority
      · have hq : lessUrgent mem task a = true := by simp [lessUrgent, hpr]
        refine ⟨setNext mem task (some a), some task, ?_, ?_, ?_, ?_⟩
        · simp [junkos_put_task_on_list_in_priority_order, put_loop, hpr]
        · simp only [hq, if_true]
          refine ⟨rfl, ?_⟩
          rw [setNext_next_same]
          refine h.frame ?_
          intro b hb
          have hbt : b ≠ task := by
            rintro rfl
            exact ht hb
          rw [setNext_ne _ _ hbt]
        · exact (SameData.refl mem).setNext task _
        · intro b _ hbt
          rw [setNext_ne _ _ hbt]
      · have hq : lessUrgent mem task a = false := by simp [lessUrgent, hpr]
        obtain ⟨mem', e, hl, hsd, hfr⟩ :=
          put_loop_spec mem (some a) task l [] a f (by simpa using h) (by simpa using ht) hf'
        refine ⟨mem', some a, ?_, ?_, hsd, ?_⟩
        · simp only [junkos_put_task_on_list_in_priority_order, put_loop, hpr, if_false]
          rw [e]
        · simpa [hq] using hl
        · intro b hb hbt
          apply hfr _ _ hbt
          simpa using hb

/-! ## The two queues together -/

theorem Ascending.of_sameData {mem mem' : Mem} {l : List Nat} (h : Ascending mem l)
    (hs : SameData mem mem') : Ascending mem' l := by
  unfold Ascending at h ⊢
  refine h.imp ?_
  intro a b hab
  rw [hs.priority a, hs.priority b]
  exact hab

theorem put_effect_congr {mem mem' : Mem} (hs : SameData mem mem') (task : Nat) (l : List Nat) :
    put_effect mem' task l = put_effect mem task l := by
  cases l with
  | nil => rfl
  | cons a l => simp [put_effect, hs.priority]

theorem mem_put_effect {mem : Mem} {task a : Nat} {l : List Nat}
    (h : a ∈ put_effect mem task l) : a = task ∨ a ∈ l := by
  cases l with
  | nil => simpa [put_effect] using h
  | cons c l =>
    rw [put_effect_cons] at h
    split_ifs at h
    · simpa using h
    · exact Or.inr h
    · simp only [List.cons_append, List.mem_cons, List.mem_append, List.mem_singleton,
        List.not_mem_nil, or_false] at h
      simp only [List.mem_cons]
      tauto

theorem put_effect_nodup {mem : Mem} {task : Nat} {l : List Nat} (h : l.Nodup)
    (ht : task ∉ l) : (put_effect mem task l).Nodup := by
  cases l with
  | nil => simp [put_effect]
  | cons c l =>
    rw [put_effect_cons]
    split_ifs
    · exact List.nodup_cons.2 ⟨ht, h⟩
    · exact h
    · rw [show c :: l ++ [task] = (c :: l) ++ [task] from rfl, List.nodup_append]
      refine ⟨h, List.nodup_singleton task, ?_⟩
      intro a ha hat
      rw [List.mem_singleton] at hat
      exact ht (hat ▸ ha)

theorem put_effect_ascending {mem : Mem} {task : Nat} {l : List Nat} (h : Ascending mem l) :
    Ascending mem (put_effect mem task l) := by
  cases l with
  | nil => simp [put_effect, Ascending]
  | cons c l =>
    rw [put_effect_cons]
    unfold Ascending at h ⊢
    split_ifs with h₁ h₂
    · refine List.pairwise_cons.2 ⟨?_, h⟩
      have hc : (mem task).priority < (mem c).priority := by simpa [lessUrgent] using h₁
      intro b hb
      rcases List.mem_cons.1 hb with rfl | hb
      · exact Nat.le_of_lt hc
      · exact Nat.le_trans (Nat.le_of_lt hc) ((List.pairwise_cons.1 h).1 b hb)
    · exact h
    · rw [show c :: l ++ [task] = (c :: l) ++ [task] from rfl, List.pairwise_append]
      refine ⟨h, List.pairwise_singleton _ _, ?_⟩
      intro a ha b hb
      rw [List.mem_singleton] at hb
      subst hb
      rcases List.mem_cons.1 ha with rfl | ha
      · simpa [lessUrgent] using h₁
      · have := h₂
        simp only [List.any_eq_true, not_exists, not_and, Bool.not_eq_true] at this
        simpa [lessUrgent] using this a ha

theorem Queues.swap {base n : Nat} {mem : Mem} {h₁ h₂ : Option Nat} {l₁ l₂ : List Nat}
    (q : Queues base n mem h₁ h₂ l₁ l₂) : Queues base n mem h₂ h₁ l₂ l₁ :=
  { first := q.second
    second := q.first
    nodup := List.nodup_append_comm.1 q.nodup
    asc₁ := q.asc₂
    asc₂ := q.asc₁
    inTable := fun a ha => q.inTable a (by
      rcases List.mem_append.1 ha with h | h
      · exact List.mem_append_right _ h
      · exact List.mem_append_left _ h) }

theorem Queues.length_le {base n : Nat} {mem : Mem} {h₁ h₂ : Option Nat} {l₁ l₂ : List Nat}
    (q : Queues base n mem h₁ h₂ l₁ l₂) : l₁.length + l₂.length ≤ n := by
  have hsub : (l₁ ++ l₂).toFinset ⊆ Finset.Ico base (base + n) := by
    intro a ha
    rw [List.mem_toFinset] at ha
    rw [Finset.mem_Ico]
    exact q.inTable a ha
  have hcard := Finset.card_le_card hsub
  rw [List.toFinset_card_of_nodup q.nodup, Nat.card_Ico] at hcard
  simpa using hcard

theorem Queues.put {base n n' : Nat} {mem : Mem} {h₁ h₂ : Option Nat} {l₁ l₂ : List Nat}
    (q : Queues base n mem h₁ h₂ l₁ l₂) (fuel task : Nat) (ht : task ∉ l₁ ++ l₂)
    (hn : (mem task).next = none) (hb : base ≤ task ∧ task < base + n') (hnn : n ≤ n')
    (hf : l₁.length < fuel) :
    ∃ mem' h₁', junkos_put_task_on_list_in_priority_order fuel mem h₁ task = some (mem', h₁') ∧
      Queues base n' mem' h₁' h₂ (put_effect mem task l₁) l₂ ∧ SameData mem mem' := by
  have ht₁ : task ∉ l₁ := fun h => ht (List.mem_append_left _ h)
  have ht₂ : task ∉ l₂ := fun h => ht (List.mem_append_right _ h)
  obtain ⟨mem', h₁', e, hl, hsd, hfr⟩ := put_spec fuel mem h₁ task l₁ q.first ht₁ hn hf
  refine ⟨mem', h₁', e, ?_, hsd⟩
  have hnd := List.nodup_append.1 q.nodup
  refine
    { first := hl
      second := q.second.frame ?_
      nodup := ?_
      asc₁ := (put_effect_ascending q.asc₁).of_sameData hsd
      asc₂ := q.asc₂.of_sameData hsd
      inTable := ?_ }
  · intro a ha
    have ha₁ : a ∉ l₁ := fun h => hnd.2.2 h ha
    have hat : a ≠ task := by
      rintro rfl
      exact ht₂ ha
    rw [hfr a ha₁ hat]
  · refine List.nodup_append.2 ⟨put_effect_nodup hnd.1 ht₁, hnd.2.1, ?_⟩
    intro a ha ha₂
    rcases mem_put_effect ha with rfl | ha₁
    · exact ht₂ ha₂
    · exact hnd.2.2 ha₁ ha₂
  · intro a ha
    rcases List.mem_append.1 ha with h | h
    · rcases mem_put_effect h with rfl | h₁
      · exact hb
      · have := q.inTable a (List.mem_append_left _ h₁)
        omega
    · have := q.inTable a (List.mem_append_right _ h)
      omega

theorem Queues.delete {base n : Nat} {mem : Mem} {h₁ h₂ : Option Nat} {l₁ l₂ : List Nat}
    (q : Queues base n mem h₁ h₂ l₁ l₂) (fuel task_id : Nat) (hf : l₂.length < fuel) :
    ∃ mem' h₂', junkos_delete_task_from_list fuel mem h₂ task_id
        = some (l₂.find? (hasId mem task_id), mem', h₂') ∧
      Queues base n mem' h₁ h₂' l₁ (l₂.eraseP (hasId mem task_id)) ∧ SameData mem mem' ∧
      (∀ a, l₂.find? (hasId mem task_id) = some a → (mem' a).next = none) ∧
      (l₂.find? (hasId mem task_id) = none → mem' = mem ∧ h₂' = h₂) := by
  obtain ⟨mem', h₂', e, hl, hfound, hnone, hsd, hfr⟩ :=
    delete_spec fuel mem h₂ task_id l₂ q.second hf
  refine ⟨mem', h₂', e, ?_, hsd, hfound, hnone⟩
  have hnd := List.nodup_append.1 q.nodup
  have hsub : (l₂.eraseP (hasId mem task_id)).Sublist l₂ := List.eraseP_sublist l₂
  refine
    { first := q.first.frame ?_
      second := hl
      nodup := ?_
      asc₁ := q.asc₁.of_sameData hsd
      asc₂ := Ascending.of_sameData (List.Pairwise.sublist hsub q.asc₂) hsd
      inTable := ?_ }
  · intro a ha
    have ha₂ : a ∉ l₂ := fun h => hnd.2.2 ha h
    rw [hfr a ha₂]
  · refine List.nodup_append.2 ⟨hnd.1, hnd.2.1.sublist hsub, ?_⟩
    intro a ha ha₂
    exact hnd.2.2 ha (hsub.subset ha₂)
  · intro a ha
    rcases List.mem_append.1 ha with h | h
    · exact q.inTable a (List.mem_append_left _ h)
    · exact q.inTable a (List.mem_append_right _ (hsub.subset h))

theorem Queues.pop {base n : Nat} {mem : Mem} {h₁ h₂ : Option Nat} {l₁ l₂ : List Nat} {t : Nat}
    (q : Queues base n mem h₁ h₂ (t :: l₁) l₂) :
    junkos_pop_task_off_list_in_priority_order mem h₁
        = (some t, setNext mem t none, (mem t).next) ∧
      Queues base n (setNext mem t none) (mem t).next h₂ l₁ l₂ := by
  have e : h₁ = some t := q.first.1
  subst e
  refine ⟨rfl, ?_⟩
  have hnd : (t :: (l₁ ++ l₂)).Nodup := q.nodup
  have hsd : SameData mem (setNext mem t none) := (SameData.refl mem).setNext t none
  have hfr : ∀ a ∈ l₁ ++ l₂, (setNext mem t none a).next = (mem a).next := by
    intro a ha
    have hat : a ≠ t := by
      rintro rfl
      exact (List.nodup_cons.1 hnd).1 ha
    rw [setNext_ne _ _ hat]
  exact
    { first := q.first.2.frame (fun a ha => hfr a (List.mem_append_left _ ha))
      second := q.second.frame (fun a ha => hfr a (List.mem_append_right _ ha))
      nodup := (List.nodup_cons.1 hnd).2
      asc₁ := Ascending.of_sameData (List.Pairwise.of_cons q.asc₁) hsd
      asc₂ := q.asc₂.of_sameData hsd
      inTable := fun a ha => q.inTable a (List.mem_cons_of_mem t ha) }

/-! ## More fuel never changes a result -/

theorem delete_loop_mono {mem : Mem} {head : Option Nat} {task_id : Nat} :
    ∀ {fuel fuel' : Nat} {prev current : Option Nat} {r : Option Nat × Mem × Option Nat},
      fuel ≤ fuel' → delete_loop fuel mem head task_id prev current = some r →
      delete_loop fuel' mem head task_id prev current = some r := by
  intro fuel
  induction fuel with
  | zero => intro fuel' prev current r _ e; simp [delete_loop] at e
  | succ f ih =>
    intro fuel' prev current r hle e
    cases fuel' with
    | zero => omega
    | succ f' =>
      cases current with
      | none => simpa [delete_loop] using e
      | some cur =>
        by_cases hid : (mem cur).id = task_id
        · simpa [delete_loop, hid] using e
        · simp only [delete_loop, hid, if_false] at e ⊢
          exact ih (by omega) e

theorem put_loop_mono {mem : Mem} {head : Option Nat} {task : Nat} :
    ∀ {fuel fuel' : Nat} {prev current : Option Nat} {r : Mem × Option Nat},
      fuel ≤ fuel' → put_loop fuel mem head task prev current = some r →
      put_loop fuel' mem head task prev current = some r := by
  intro fuel
  induction fuel with
  | zero => intro fuel' prev current r _ e; simp [put_loop] at e
  | succ f ih =>
    intro fuel' prev current r hle e
    cases fuel' with
    | zero => omega
    | succ f' =>
      cases current with
      | none => simpa [put_loop] using e
      | some cur =>
        by_cases hpr : (mem cur).priority > (mem task).priority
        · simpa [put_loop, hpr] using e
        · simp only [put_loop, hpr, if_false] at e ⊢
          exact ih (by omega) e

theorem delete_mono {mem : Mem} {head : Option Nat} {task_id fuel fuel' : Nat}
    {r : Option Nat × Mem × Option Nat} (hle : fuel ≤ fuel')
    (e : junkos_delete_task_from_list fuel mem head task_id = some r) :
    junkos_delete_task_from_list fuel' mem head task_id = some r :=
  delete_loop_mono hle e

theorem put_mono {mem : Mem} {head : Option Nat} {task fuel fuel' : Nat}
    {r : Mem × Option Nat} (hle : fuel ≤ fuel')
    (e : junkos_put_task_on_list_in_priority_order fuel mem head task = some r) :
    junkos_put_task_on_list_in_priority_order fuel' mem head task = some r := by
  cases head with
  | none => simpa [junkos_put_task_on_list_in_priority_order] using e
  | some a => exact put_loop_mono hle e

theorem set_task_runnable_mono {mem : Mem} {context : junkos_scheduler_context_t}
    {task_id fuel fuel' : Nat} {r : Bool × Mem × junkos_scheduler_context_t} (hle : fuel ≤ fuel')
    (e : junkos_scheduler_set_task_runnable fuel mem context task_id = some r) :
    junkos_scheduler_set_task_runnable fuel' mem context task_id = some r := by
  unfold junkos_scheduler_set_task_runnable at e ⊢
  cases hd : junkos_delete_task_from_list fuel mem context.task_blocked_head task_id with
  | none => simp [hd] at e
  | some x =>
    rw [delete_mono hle hd]
    obtain ⟨t, mem1, bh⟩ := x
    cases t with
    | none => simpa [hd] using e
    | some t =>
      simp only [hd] at e ⊢
      cases hp : junkos_put_task_on_list_in_priority_order fuel mem1
          context.task_ready_head t with
      | none => simp [hp] at e
      | some y =>
        rw [put_mono hle hp]
        simpa [hp] using e

theorem iteration_mono {mem : Mem} {context : junkos_scheduler_context_t}
    {fuel fuel' : Nat} {r : Option Nat × Mem × junkos_scheduler_context_t} (hle : fuel ≤ fuel')
    (e : junkos_scheduler_iteration fuel mem context = some r) :
    junkos_scheduler_iteration fuel' mem context = some r := by
  unfold junkos_scheduler_iteration at e ⊢
  cases hh : context.task_ready_head with
  | none => simpa [hh, junkos_pop_task_off_list_in_priority_order] using e
  | some t =>
    simp only [hh, junkos_pop_task_off_list_in_priority_order] at e ⊢
    cases hp : junkos_put_task_on_list_in_priority_order fuel (setNext mem t none)
        context.task_blocked_head t with
    | none => simp [hp] at e
    | some y =>
      rw [put_mono hle hp]
      simpa [hp] using e

theorem init_loop_mono {base n : Nat} :
    ∀ {k k' fuel fuel' : Nat} {mem : Mem} {context : junkos_scheduler_context_t} {i : Nat}
      {r : Bool × Mem × junkos_scheduler_context_t},
      fuel ≤ fuel' → k ≤ k' → init_loop fuel k mem context base n i = some r →
      init_loop fuel' k' mem context base n i = some r := by
  intro k
  induction k with
  | zero => intro k' fuel fuel' mem context i r _ _ e; simp [init_loop] at e
  | succ k ih =>
    intro k' fuel fuel' mem context i r hle hk e
    cases k' with
    | zero => omega
    | succ k' =>
      have hk' : k ≤ k' := by omega
      by_cases hi : i < n
      · by_cases hrun : (mem (base + i)).run = none
        · simpa [init_loop, hi, hrun] using e
        · by_cases hauto : (setNext mem (base + i) none (base + i)).auto_run = true
          · simp only [init_loop, hi, hrun, hauto, if_true, if_false] at e ⊢
            cases hp : junkos_put_task_on_list_in_priority_order fuel
                (setNext mem (base + i) none) context.task_ready_head (base + i) with
            | none => simp [hp] at e
            | some y =>
              rw [put_mono hle hp]
              simp only [hp] at e
              exact ih hle hk' e
          · simp only [init_loop, hi, hrun, hauto, if_true, if_false] at e ⊢
            cases hp : junkos_put_task_on_list_in_priority_order fuel
                (setNext mem (base + i) none) context.task_blocked_head (base + i) with
            | none => simp [hp] at e
            | some y =>
              rw [put_mono hle hp]
              simp only [hp] at e
              exact ih hle hk' e
      · simpa [init_loop, hi] using e

theorem init_mono {mem : Mem} {context : junkos_scheduler_context_t} {tasks : Option Nat}
    {n fuel fuel' : Nat} {r : Bool × Mem × junkos_scheduler_context_t} (hle : fuel ≤ fuel')
    (e : junkos_scheduler_init fuel mem context tasks n = some r) :
    junkos_scheduler_init fuel' mem context tasks n = some r := by
  unfold junkos_scheduler_init at e ⊢
  cases tasks with
  | none => simpa using e
  | some base =>
    by_cases hn : n = 0
    · simpa [hn] using e
    · simp only [hn, if_false] at e ⊢
      cases hl : init_loop fuel fuel mem
          { context with task_table := none, task_table_size := 0, task_ready_head := none,
                         task_blocked_head := none } base n 0 with
      | none => simp [hl] at e
      | some y =>
        rw [init_loop_mono hle hle hl]
        simpa [hl] using e

theorem run_events_mono {fuel fuel' : Nat} (hle : fuel ≤ fuel') :
    ∀ (evs : List junkos_event) {mem : Mem} {context : junkos_scheduler_context_t}
      {r : Mem × junkos_scheduler_context_t},
      run_events fuel evs mem context = some r → run_events fuel' evs mem context = some r := by
  intro evs
  induction evs with
  | nil => intro mem context r e; simpa [run_events] using e
  | cons ev evs ih =>
    intro mem context r e
    cases ev with
    | dispatch =>
      simp only [run_events] at e ⊢
      cases hs : junkos_scheduler_iteration fuel mem context with
      | none => simp [hs] at e
      | some y =>
        rw [iteration_mono hle hs]
        simp only [hs] at e
        exact ih e
    | set_runnable task_id =>
      simp only [run_events] at e ⊢
      cases hs : junkos_scheduler_set_task_runnable fuel mem context task_id with
      | none => simp [hs] at e
      | some y =>
        rw [set_task_runnable_mono hle hs]
        simp only [hs] at e
        exact ih e

/-! ## The operations on well-formed scheduler states -/

theorem not_mem_eraseP_of_find {p : Nat → Bool} {t : Nat} :
    ∀ {l : List Nat}, l.Nodup → l.find? p = some t → t ∉ l.eraseP p := by
  intro l
  induction l with
  | nil => intro _ e; simp at e
  | cons a l ih =>
    intro hnd e
    by_cases hp : p a = true
    · rw [List.find?_cons_of_pos _ hp] at e
      cases e
      rw [List.eraseP_cons_of_pos hp]
      exact (List.nodup_cons.1 hnd).1
    · rw [List.find?_cons_of_neg _ hp] at e
      rw [List.eraseP_cons_of_neg hp]
      have hpt : p t = true := List.find?_some e
      have hta : t ≠ a := by
        rintro rfl
        exact hp hpt
      intro hmem
      rcases List.mem_cons.1 hmem with h | h
      · exact hta h
      · exact ih (List.nodup_cons.1 hnd).2 e h

theorem Queues.clear {base n : Nat} {mem : Mem} {h₁ h₂ : Option Nat} {l₁ l₂ : List Nat}
    (q : Queues base n mem h₁ h₂ l₁ l₂) (t : Nat) (ht : t ∉ l₁ ++ l₂) :
    Queues base n (setNext mem t none) h₁ h₂ l₁ l₂ := by
  have hsd : SameData mem (setNext mem t none) := (SameData.refl mem).setNext t none
  have hfr : ∀ a ∈ l₁ ++ l₂, (setNext mem t none a).next = (mem a).next := by
    intro a ha
    have hat : a ≠ t := by
      rintro rfl
      exact ht ha
    rw [setNext_ne _ _ hat]
  exact
    { first := q.first.frame (fun a ha => hfr a (List.mem_append_left _ ha))
      second := q.second.frame (fun a ha => hfr a (List.mem_append_right _ ha))
      nodup := q.nodup
      asc₁ := q.asc₁.of_sameData hsd
      asc₂ := q.asc₂.of_sameData hsd
      inTable := q.inTable }

theorem set_task_runnable_spec {base n : Nat} {mem : Mem} {context : junkos_scheduler_context_t}
    {R B : List Nat}
    (q : Queues base n mem context.task_ready_head context.task_blocked_head R B)
    (fuel task_id : Nat) (hf : n < fuel) :
    ∃ mem' context', junkos_scheduler_set_task_runnable fuel mem context task_id
        = some ((B.find? (hasId mem task_id)).isSome, mem', context') ∧
      Queues base n mem' context'.task_ready_head context'.task_blocked_head
        (ready_after_set_runnable mem task_id R B) (B.eraseP (hasId mem task_id)) ∧
      SameData mem mem' ∧ context'.task_table = context.task_table ∧
      context'.task_table_size = context.task_table_size ∧
      (B.find? (hasId mem task_id) = none → mem' = mem ∧ context' = context) := by
  have hlen := q.length_le
  obtain ⟨mem1, bh, e, q1, hsd1, hfound, hnone⟩ := q.delete fuel task_id (by omega)
  unfold junkos_scheduler_set_task_runnable ready_after_set_runnable
  rw [e]
  cases hfind : B.find? (hasId mem task_id) with
  | none =>
    obtain ⟨rfl, rfl⟩ := hnone hfind
    refine ⟨mem1, context, rfl, ?_, hsd1, rfl, rfl, fun _ => ⟨rfl, rfl⟩⟩
    simpa [hfind] using q1
  | some t =>
    have htB : t ∈ B := List.mem_of_find?_eq_some hfind
    have hnd := List.nodup_append.1 q.nodup
    have ht : t ∉ R ++ B.eraseP (hasId mem task_id) := by
      intro h
      rcases List.mem_append.1 h with h | h
      · exact hnd.2.2 h htB
      · exact not_mem_eraseP_of_find hnd.2.1 hfind h
    obtain ⟨mem2, rh, e2, q2, hsd2⟩ :=
      q1.put fuel t ht (hfound t hfind) (q.inTable t (List.mem_append_right _ htB))
        (Nat.le_refl n) (by omega)
    refine ⟨mem2, { context with task_blocked_head := bh, task_ready_head := rh }, ?_, ?_,
      hsd1.trans hsd2, rfl, rfl, fun h => by simp at h⟩
    · simp only [e2, Option.isSome_some]
    · rw [put_effect_congr hsd1] at q2
      exact q2

theorem iteration_spec {base n : Nat} {mem : Mem} {context : junkos_scheduler_context_t}
    {R B : List Nat}
    (q : Queues base n mem context.task_ready_head context.task_blocked_head R B)
    (fuel : Nat) (hf : n < fuel) :
    ∃ mem' context', junkos_scheduler_iteration fuel mem context
        = some (R.head?, mem', context') ∧
      Queues base n mem' context'.task_ready_head context'.task_blocked_head
        R.tail (blocked_after_iteration mem R B) ∧
      SameData mem mem' ∧ context'.task_table = context.task_table ∧
      context'.task_table_size = context.task_table_size ∧
      (R = [] → mem' = mem ∧ context' = context) := by
  have hlen := q.length_le
  unfold junkos_scheduler_iteration blocked_after_iteration
  cases R with
  | nil =>
    have e : context.task_ready_head = none := q.first
    refine ⟨mem, context, ?_, q, SameData.refl mem, rfl, rfl, fun _ => ⟨rfl, rfl⟩⟩
    simp only [e, junkos_pop_task_off_list_in_priority_order, List.head?_nil]
    congr
    cases context
    simp_all
  | cons t R =>
    obtain ⟨epop, q1⟩ := q.pop
    have hnd : (t :: (R ++ B)).Nodup := q.nodup
    have ht : t ∉ B ++ R := by
      intro h
      apply (List.nodup_cons.1 hnd).1
      rcases List.mem_append.1 h with h | h
      · exact List.mem_append_right _ h
      · exact List.mem_append_left _ h
    have hsd1 : SameData mem (setNext mem t none) := (SameData.refl mem).setNext t none
    obtain ⟨mem2, bh, e2, q2, hsd2⟩ :=
      q1.swap.put fuel t ht (setNext_next_same mem t none)
        (q.inTable t (List.mem_append_left _ (List.mem_cons_self t R)))
        (Nat.le_refl n) (by simp at hlen; omega)
    refine ⟨mem2, { context with task_ready_head := (mem t).next, task_blocked_head := bh },
      ?_, ?_, hsd1.trans hsd2, rfl, rfl, fun h => by simp at h⟩
    · rw [epop]
      simp only [e2, List.head?_cons]
    · rw [put_effect_congr hsd1] at q2
      exact q2.swap

theorem init_loop_spec (fuel base n : Nat) (hn : n ≤ 255) (hfuel : n < fuel) :
    ∀ (k i : Nat) (mem : Mem) (context : junkos_scheduler_context_t) (R B : List Nat),
      i ≤ n → n - i < k →
      Queues base i mem context.task_ready_head context.task_blocked_head R B →
      ∃ flag mem' context', init_loop fuel k mem context base n i = some (flag, mem', context') ∧
        (flag = true ↔ ∀ j, i ≤ j → j < n → (mem (base + j)).run ≠ none) ∧
        (flag = true → ∃ R' B',
          Queues base n mem' context'.task_ready_head context'.task_blocked_head R' B') ∧
        SameData mem mem' ∧ context'.task_table = context.task_table ∧
        context'.task_table_size = context.task_table_size := by
  intro k
  induction k with
  | zero => intro i mem context R B _ hk; omega
  | succ k ih =>
    intro i mem context R B hin hk q
    by_cases hi : i < n
    · have hlen := q.length_le
      by_cases hrun : (mem (base + i)).run = none
      · refine ⟨false, mem, context, ?_, ?_, ?_, SameData.refl mem, rfl, rfl⟩
        · simp [init_loop, hi, hrun]
        · simp only [Bool.false_eq_true, false_iff, not_forall]
          exact ⟨i, Nat.le_refl i, hi, fun h => h hrun⟩
        · intro h; cases h
      · have ht : base + i ∉ R ++ B := by
          intro h
          have := q.inTable _ h
          omega
        have q0 := q.clear (base + i) ht
        have hsd0 : SameData mem (setNext mem (base + i) none) :=
          (SameData.refl mem).setNext _ _
        have hmod : (i + 1) % 256 = i + 1 := Nat.mod_eq_of_lt (by omega)
        have hb : base ≤ base + i ∧ base + i < base + (i + 1) := by omega
        have hnext : (setNext mem (base + i) none (base + i)).next = none :=
          setNext_next_same _ _ _
        by_cases hauto : (setNext mem (base + i) none (base + i)).auto_run = true
        · obtain ⟨mem2, rh, e2, q2, hsd2⟩ :=
            q0.put fuel (base + i) ht hnext hb (Nat.le_succ i) (by omega)
          obtain ⟨flag, mem', context', e, hflag, hq, hsd, ht₁, ht₂⟩ :=
            ih (i + 1) mem2 { context with task_ready_head := rh } _ B (by omega) (by omega) q2
          refine ⟨flag, mem', context', ?_, ?_, hq, (hsd0.trans hsd2).trans hsd, ht₁, ht₂⟩
          · simp only [init_loop, hi, hrun, hauto, if_true, if_false, e2, hmod]
            exact e
          · rw [hflag]
            constructor
            · intro h j hij hjn
              rcases Nat.eq_or_lt_of_le hij with rfl | hlt
              · exact hrun
              · rw [← (hsd0.trans hsd2).run (base + j)]
                exact h j hlt hjn
            · intro h j hij hjn
              rw [(hsd0.trans hsd2).run (base + j)]
              exact h j (by omega) hjn
        · obtain ⟨mem2, bh, e2, q2, hsd2⟩ :=
            q0.swap.put fuel (base + i) (by
              intro h
              apply ht
              rcases List.mem_append.1 h with h | h
              · exact List.mem_append_right _ h
              · exact List.mem_append_left _ h) hnext hb (Nat.le_succ i) (by omega)
          obtain ⟨flag, mem', context', e, hflag, hq, hsd, ht₁, ht₂⟩ :=
            ih (i + 1) mem2 { context with task_blocked_head := bh } R _ (by omega) (by omega)
              q2.swap
          refine ⟨flag, mem', context', ?_, ?_, hq, (hsd0.trans hsd2).trans hsd, ht₁, ht₂⟩
          · simp only [init_loop, hi, hrun, hauto, if_true, if_false, e2, hmod]
            exact e
          · rw [hflag]
            constructor
            · intro h j hij hjn
              rcases Nat.eq_or_lt_of_le hij with rfl | hlt
              · exact hrun
              · rw [← (hsd0.trans hsd2).run (base + j)]
                exact h j hlt hjn
            · intro h j hij hjn
              rw [(hsd0.trans hsd2).run (base + j)]
              exact h j (by omega) hjn
    · have hi' : i = n := by omega
      subst hi'
      refine ⟨true, mem, context, ?_, ?_, fun _ => ⟨R, B, q⟩, SameData.refl mem, rfl, rfl⟩
      · simp [init_loop]
      · simp only [true_iff]
        intro j h₁ h₂
        omega

theorem init_loop_true_bound {fuel base n : Nat} :
    ∀ {k i : Nat} {mem mem' : Mem} {context context' : junkos_scheduler_context_t},
      i < 256 → init_loop fuel k mem context base n i = some (true, mem', context') →
      n ≤ 255 := by
  intro k
  induction k with
  | zero => intro i mem mem' context context' _ e; simp [init_loop] at e
  | succ k ih =>
    intro i mem mem' context context' hi e
    by_cases hin : i < n
    · by_cases hrun : (mem (base + i)).run = none
      · simp [init_loop, hin, hrun] at e
      · have hmod : (i + 1) % 256 < 256 := Nat.mod_lt _ (by decide)
        by_cases hauto : (setNext mem (base + i) none (base + i)).auto_run = true
        · simp only [init_loop, hin, hrun, hauto, if_true, if_false] at e
          cases hp : junkos_put_task_on_list_in_priority_order fuel
              (setNext mem (base + i) none) context.task_ready_head (base + i) with
          | none => simp [hp] at e
          | some y =>
            simp only [hp] at e
            exact ih hmod e
        · simp only [init_loop, hin, hrun, hauto, if_true, if_false] at e
          cases hp : junkos_put_task_on_list_in_priority_order fuel
              (setNext mem (base + i) none) context.task_blocked_head (base + i) with
          | none => simp [hp] at e
          | some y =>
            simp only [hp] at e
            exact ih hmod e
    · omega

theorem init_spec (fuel base n : Nat) (mem : Mem) (context : junkos_scheduler_context_t)
    (hn0 : n ≠ 0) (hn : n ≤ 255) (hf : n < fuel) :
    ∃ flag mem' context', junkos_scheduler_init fuel mem context (some base) n
        = some (flag, mem', context') ∧
      (flag = true ↔ ∀ j, j < n → (mem (base + j)).run ≠ none) ∧
      (flag = true → ∃ R B,
        Queues base n mem' context'.task_ready_head context'.task_blocked_head R B ∧
        context'.task_table = some base ∧ context'.task_table_size = n) ∧
      (flag = false → context'.task_ready_head = none ∧ context'.task_blocked_head = none) ∧
      SameData mem mem' := by
  have q0 : Queues base 0 mem (none : Option Nat) none [] [] :=
    { first := rfl, second := rfl, nodup := List.nodup_nil, asc₁ := List.Pairwise.nil,
      asc₂ := List.Pairwise.nil, inTable := fun a ha => by simp at ha }
  obtain ⟨flag, mem', context', e, hflag, hq, hsd, _, _⟩ :=
    init_loop_spec fuel base n hn hf fuel 0 mem
      { context with task_table := none, task_table_size := 0, task_ready_head := none,
                     task_blocked_head := none } [] [] (Nat.zero_le n) (by omega) q0
  unfold junkos_scheduler_init
  simp only [hn0, if_false, e]
  cases flag with
  | true =>
    obtain ⟨R, B, q⟩ := hq rfl
    refine ⟨true, mem', _, rfl, ?_, fun _ => ⟨R, B, q, rfl, rfl⟩, fun h => Bool.noConfusion h, hsd⟩
    simp only [true_iff]
    intro j hj
    exact (hflag.1 rfl) j (Nat.zero_le j) hj
  | false =>
    refine ⟨false, mem', _, rfl, ?_, fun h => Bool.noConfusion h, fun _ => ⟨rfl, rfl⟩, hsd⟩
    simp only [Bool.false_eq_true, false_iff]
    intro h
    have := hflag.2 (fun j _ hj => h j hj)
    cases this

theorem init_success {fuel : Nat} {mem mem' : Mem} {context context' : junkos_scheduler_context_t}
    {tasks : Option Nat} {n : Nat}
    (e : junkos_scheduler_init fuel mem context tasks n = some (true, mem', context')) :
    ∃ base R B, tasks = some base ∧ n ≠ 0 ∧ n ≤ 255 ∧
      (∀ j, j < n → (mem (base + j)).run ≠ none) ∧
      Queues base n mem' context'.task_ready_head context'.task_blocked_head R B ∧
      SameData mem mem' ∧ context'.task_table = some base ∧ context'.task_table_size = n := by
  cases tasks with
  | none => simp [junkos_scheduler_init] at e
  | some base =>
    have hn0 : n ≠ 0 := by
      intro h
      simp [junkos_scheduler_init, h] at e
    have hn : n ≤ 255 := by
      unfold junkos_scheduler_init at e
      simp only [hn0, if_false] at e
      cases hl : init_loop fuel fuel mem
          { context with task_table := none, task_table_size := 0, task_ready_head := none,
                         task_blocked_head := none } base n 0 with
      | none => simp [hl] at e
      | some y =>
        obtain ⟨flag, m, c⟩ := y
        cases flag with
        | true => exact init_loop_true_bound (by decide) hl
        | false => simp [hl] at e
    obtain ⟨flag, mem₂, context₂, e₂, hflag, hq, _, hsd⟩ :=
      init_spec (max fuel (n + 1)) base n mem context hn0 hn (by omega)
    have e₃ := init_mono (Nat.le_max_left fuel (n + 1)) e
    rw [e₃] at e₂
    simp only [Option.some.injEq, Prod.mk.injEq] at e₂
    obtain ⟨rfl, rfl, rfl⟩ := e₂
    obtain ⟨R, B, q, ht₁, ht₂⟩ := hq rfl
    exact ⟨base, R, B, rfl, hn0, hn, hflag.1 rfl, q, hsd, ht₁, ht₂⟩

theorem run_events_inv {base n fuel : Nat} {mem₀ : Mem} :
    ∀ (evs : List junkos_event) {mem mem' : Mem} {context context' : junkos_scheduler_context_t}
      {R B : List Nat},
      Queues base n mem context.task_ready_head context.task_blocked_head R B →
      SameData mem₀ mem → run_events fuel evs mem context = some (mem', context') →
      ∃ R' B', Queues base n mem' context'.task_ready_head context'.task_blocked_head R' B' ∧
        SameData mem₀ mem' ∧ context'.task_table = context.task_table ∧
        context'.task_table_size = context.task_table_size := by
  intro evs
  induction evs with
  | nil =>
    intro mem mem' context context' R B q hsd e
    simp only [run_events, Option.some.injEq, Prod.mk.injEq] at e
    obtain ⟨rfl, rfl⟩ := e
    exact ⟨R, B, q, hsd, rfl, rfl⟩
  | cons ev evs ih =>
    intro mem mem' context context' R B q hsd e
    cases ev with
    | dispatch =>
      simp only [run_events] at e
      cases hs : junkos_scheduler_iteration fuel mem context with
      | none => simp [hs] at e
      | some y =>
        simp only [hs] at e
        obtain ⟨m₂, c₂, e₂, q₂, hsd₂, ht₁, ht₂, _⟩ := iteration_spec q (max fuel (n + 1)) (by omega)
        rw [iteration_mono (Nat.le_max_left fuel (n + 1)) hs] at e₂
        cases e₂
        obtain ⟨R', B', q', hsd', ht₁', ht₂'⟩ := ih q₂ (hsd.trans hsd₂) e
        exact ⟨R', B', q', hsd', ht₁'.trans ht₁, ht₂'.trans ht₂⟩
    | set_runnable task_id =>
      simp only [run_events] at e
      cases hs : junkos_scheduler_set_task_runnable fuel mem context task_id with
      | none => simp [hs] at e
      | some y =>
        simp only [hs] at e
        obtain ⟨m₂, c₂, e₂, q₂, hsd₂, ht₁, ht₂, _⟩ :=
          set_task_runnable_spec q (max fuel (n + 1)) task_id (by omega)
        rw [set_task_runnable_mono (Nat.le_max_left fuel (n + 1)) hs] at e₂
        cases e₂
        obtain ⟨R', B', q', hsd', ht₁', ht₂'⟩ := ih q₂ (hsd.trans hsd₂) e
        exact ⟨R', B', q', hsd', ht₁'.trans ht₁, ht₂'.trans ht₂⟩

theorem junkos_run_inv {fuel : Nat} {mem₀ mem : Mem} {context₀ context : junkos_scheduler_context_t}
    {tasks : Option Nat} {n : Nat} {evs : List junkos_event}
    (e : junkos_run fuel mem₀ context₀ tasks n evs = some (mem, context)) :
    ∃ base R B, tasks = some base ∧ n ≠ 0 ∧ n ≤ 255 ∧
      Queues base n mem context.task_ready_head context.task_blocked_head R B ∧
      SameData mem₀ mem ∧ context.task_table = some base ∧ context.task_table_size = n := by
  unfold junkos_run at e
  cases hi : junkos_scheduler_init fuel mem₀ context₀ tasks n with
  | none => simp [hi] at e
  | some y =>
    obtain ⟨flag, mem₁, context₁⟩ := y
    cases flag with
    | false => simp [hi] at e
    | true =>
      simp only [hi] at e
      obtain ⟨base, R, B, ht, hn0, hn, _, q, hsd, ht₁, ht₂⟩ := init_success hi
      obtain ⟨R', B', q', hsd', ht₁', ht₂'⟩ := run_events_inv evs q hsd e
      exact ⟨base, R', B', ht, hn0, hn, q', hsd', ht₁'.trans ht₁, ht₂'.trans ht₂⟩

/-! ## Claims -/

/-- C6: in every state reached from a successful `junkos_scheduler_init` by dispatch-loop
iterations and `junkos_scheduler_set_task_runnable` calls, the ready queue is a list `R`, and
the next dispatch-loop iteration (with fuel above the table size) returns: it selects the
head of `R` (nothing when `R` is empty), the selected task has a priority value less than or
equal to that of every task of `R`, and afterwards the ready queue is `R` without its head. -/
theorem C6_dispatch_selects_most_urgent (fuel : Nat) (mem₀ mem : Mem)
    (context₀ context : junkos_scheduler_context_t) (tasks : Option Nat) (n : Nat)
    (evs : List junkos_event)
    (h : junkos_run fuel mem₀ context₀ tasks n evs = some (mem, context)) :
    ∃ R, IsList mem context.task_ready_head R ∧
      ∀ fuel', n < fuel' →
        ∃ mem' context', junkos_scheduler_iteration fuel' mem context
            = some (R.head?, mem', context') ∧
          (∀ t, R.head? = some t → ∀ a ∈ R, (mem t).priority ≤ (mem a).priority) ∧
          IsList mem' context'.task_ready_head R.tail := by
  obtain ⟨base, R, B, _, _, _, q, _, _, _⟩ := junkos_run_inv h
  refine ⟨R, q.first, ?_⟩
  intro fuel' hf
  obtain ⟨mem', context', e, q', _, _, _, _⟩ := iteration_spec q fuel' hf
  refine ⟨mem', context', e, ?_, q'.first⟩
  intro t ht a ha
  cases R with
  | nil => simp at ht
  | cons r R =>
    simp only [List.head?_cons, Option.some.injEq] at ht
    subst ht
    rcases List.mem_cons.1 ha with rfl | ha
    · exact Nat.le_refl _
    · exact (List.pairwise_cons.1 q.asc₁).1 a ha

/-- C7: in every state reached from a successful `junkos_scheduler_init` over a table whose
ids are pairwise different, `junkos_scheduler_set_task_runnable(task_id)` for an id carried by
a task of the ready queue, or carried by no descriptor of the table, returns `false` and
leaves the memory and the scheduler context (hence both queues) exactly as they were. -/
theorem C7_set_task_runnable_rejects (fuel base n : Nat) (mem₀ mem : Mem)
    (context₀ context : junkos_scheduler_context_t) (evs : List junkos_event)
    (h : junkos_run fuel mem₀ context₀ (some base) n evs = some (mem, context))
    (huniq : ∀ i, i < n → ∀ j, j < n → (mem₀ (base + i)).id = (mem₀ (base + j)).id → i = j)
    (task_id : Nat) (R : List Nat) (hR : IsList mem context.task_ready_head R)
    (hid : (∃ a ∈ R, (mem a).id = task_id) ∨ (∀ i, i < n → (mem₀ (base + i)).id ≠ task_id))
    (fuel' : Nat) (hf : n < fuel') :
    junkos_scheduler_set_task_runnable fuel' mem context task_id = some (false, mem, context) := by
  obtain ⟨base', R', B, hb, _, _, q, hsd, _, _⟩ := junkos_run_inv h
  cases hb
  have hRR : R = R' := hR.unique q.first
  subst hRR
  have hnone : B.find? (hasId mem task_id) = none := by
    rw [List.find?_eq_none]
    intro b hb hq
    have hbid : (mem b).id = task_id := by simpa [hasId] using hq
    have hbt := q.inTable b (List.mem_append_right _ hb)
    obtain ⟨j, rfl⟩ : ∃ j, b = base + j := ⟨b - base, by omega⟩
    have hj : j < n := by omega
    rcases hid with ⟨a, ha, haid⟩ | hno
    · have hat := q.inTable a (List.mem_append_left _ ha)
      obtain ⟨i, rfl⟩ : ∃ i, a = base + i := ⟨a - base, by omega⟩
      have hi : i < n := by omega
      have hij : i = j := by
        apply huniq i hi j hj
        rw [← hsd.id (base + i), ← hsd.id (base + j), haid, hbid]
      subst hij
      exact (List.nodup_append.1 q.nodup).2.2 ha hb
    · apply hno j hj
      rw [← hsd.id (base + j)]
      exact hbid
  obtain ⟨mem', context', e, _, _, _, _, hsame⟩ := set_task_runnable_spec q fuel' task_id hf
  obtain ⟨rfl, rfl⟩ := hsame hnone
  rw [e, hnone]
  rfl

/-- C8: for every table pointer and every `num_tasks ≤ 255`, `junkos_scheduler_init` returns
(with fuel above `num_tasks`), and the flag it returns is `true` exactly when the table
pointer is not `NULL`, `num_tasks` is not 0 and each of the `num_tasks` descriptors has a
`run` callback that is not `NULL`. -/
theorem C8_init_result (fuel : Nat) (mem : Mem) (context : junkos_scheduler_context_t)
    (tasks : Option Nat) (n : Nat) (hn : n ≤ 255) (hf : n < fuel) :
    ∃ flag mem' context', junkos_scheduler_init fuel mem context tasks n
        = some (flag, mem', context') ∧
      (flag = true ↔
        ∃ base, tasks = some base ∧ n ≠ 0 ∧ ∀ i, i < n → (mem (base + i)).run ≠ none) := by
  cases tasks with
  | none =>
    refine ⟨false, mem, context, rfl, ?_⟩
    simp
  | some base =>
    by_cases hn0 : n = 0
    · refine ⟨false, mem, context, ?_, ?_⟩
      · simp [junkos_scheduler_init, hn0]
      · simp [hn0]
    · obtain ⟨flag, mem', context', e, hflag, _, _, _⟩ :=
        init_spec fuel base n mem context hn0 hn hf
      refine ⟨flag, mem', context', e, ?_⟩
      rw [hflag]
      constructor
      · intro hall
        exact ⟨base, rfl, hn0, hall⟩
      · rintro ⟨base', hb, _, hall⟩
        cases hb
        exact hall

/-- C9 (amended): a `junkos_scheduler_init` call that reports failure because the table
pointer is `NULL` or `num_tasks` is 0 leaves the memory and the scheduler context, hence both
queues, exactly as they were before the call; a call that reports failure for a table that
is not `NULL` with `num_tasks` not 0 (some descriptor has a `NULL` callback) leaves both the
ready queue and the blocked queue empty. -/
theorem C9_failed_init_queues (fuel : Nat) (mem mem' : Mem)
    (context context' : junkos_scheduler_context_t) (tasks : Option Nat) (n : Nat)
    (h : junkos_scheduler_init fuel mem context tasks n = some (false, mem', context')) :
    ((tasks = none ∨ n = 0) → mem' = mem ∧ context' = context) ∧
    ((tasks ≠ none ∧ n ≠ 0) →
      context'.task_ready_head = none ∧ context'.task_blocked_head = none) := by
  constructor
  · intro hc
    have e : junkos_scheduler_init fuel mem context tasks n = some (false, mem, context) := by
      rcases hc with rfl | rfl
      · rfl
      · cases tasks <;> simp [junkos_scheduler_init]
    rw [e] at h
    simp only [Option.some.injEq, Prod.mk.injEq, true_and] at h
    exact ⟨h.1.symm, h.2.symm⟩
  · rintro ⟨ht, hn0⟩
    cases tasks with
    | none => exact absurd rfl ht
    | some base =>
      unfold junkos_scheduler_init at h
      simp only [hn0, if_false] at h
      cases hl : init_loop fuel fuel mem
          { context with task_table := none, task_table_size := 0, task_ready_head := none,
                         task_blocked_head := none } base n 0 with
      | none => simp [hl] at h
      | some y =>
        obtain ⟨flag, m, c⟩ := y
        cases flag with
        | true => simp [hl] at h
        | false =>
          simp only [hl, Option.some.injEq, Prod.mk.injEq, true_and] at h
          obtain ⟨_, rfl⟩ := h
          exact ⟨rfl, rfl⟩

/-- C10: for every acyclic queue (a `NULL`-terminated list `l` from `head`) and every id,
`junkos_delete_task_from_list` run with more fuel than the queue is long returns the first
task of the queue carrying that id, with its `next` link cleared, and leaves the queue equal
to the old one without that task, the other tasks in their previous order (and no field
other than `next` links changed); if no task of the queue carries the id it returns `NULL`
and leaves memory and head unchanged. -/
theorem C10_delete_task_from_list (fuel : Nat) (mem : Mem) (head : Option Nat) (task_id : Nat)
    (l : List Nat) (h : IsList mem head l) (hf : l.length < fuel) :
    (∀ l₁ a l₂, l = l₁ ++ a :: l₂ → (mem a).id = task_id →
      (∀ b ∈ l₁, (mem b).id ≠ task_id) →
      ∃ mem' head', junkos_delete_task_from_list fuel mem head task_id
          = some (some a, mem', head') ∧
        (mem' a).next = none ∧ IsList mem' head' (l₁ ++ l₂) ∧ SameData mem mem') ∧
    ((∀ b ∈ l, (mem b).id ≠ task_id) →
      junkos_delete_task_from_list fuel mem head task_id = some (none, mem, head)) := by
  obtain ⟨mem', head', e, hl, hfound, hnone, hsd, _⟩ := delete_spec fuel mem head task_id l h hf
  constructor
  · intro l₁ a l₂ hl₁ ha hb
    have hq₁ : ∀ b ∈ l₁, ¬ hasId mem task_id b = true := by
      intro b hb₁
      simpa [hasId] using hb b hb₁
    have hqa : hasId mem task_id a = true := by simp [hasId, ha]
    have hfind : l.find? (hasId mem task_id) = some a := by
      rw [hl₁, List.find?_append, List.find?_eq_none.2 hq₁, List.find?_cons_of_pos _ hqa]
      rfl
    have herase : l.eraseP (hasId mem task_id) = l₁ ++ l₂ := by
      rw [hl₁, List.eraseP_append_right _ hq₁, List.eraseP_cons_of_pos hqa]
    rw [hfind] at e
    rw [herase] at hl
    exact ⟨mem', head', e, hfound a hfind, hl, hsd⟩
  · intro hb
    have hfind : l.find? (hasId mem task_id) = none := by
      rw [List.find?_eq_none]
      intro b hb₁
      simpa [hasId] using hb b hb₁
    obtain ⟨rfl, rfl⟩ := hnone hfind
    rw [e, hfind]

/-- C1 (code at the failing input): after `junkos_scheduler_init` on a table with ready tasks
of priorities 1 and 3 and a blocked task of priority 2 (id 12) the ready queue is `[0, 1]`
and the blocked queue `[2]`; `junkos_scheduler_set_task_runnable(12)` then returns `true`,
but afterwards the ready queue is still `[0, 1]` and the blocked queue is empty: task 2 is on
neither queue. -/
theorem C1_set_task_runnable_loses_task :
    (junkos_run 5 (memOfTable table_blocked_middle) gbl_context (some 0) 3 []).map
        (fun s => queues 5 s.1 s.2) = some (some [0, 1], some [2]) ∧
    ((junkos_run 5 (memOfTable table_blocked_middle) gbl_context (some 0) 3 []).bind
        (fun s => junkos_scheduler_set_task_runnable 5 s.1 s.2 12)).map
        (fun r => (r.1, queues 5 r.2.1 r.2.2)) = some (true, some [0, 1], some []) := by
  decide

/-- C2 (code at the failing input): after `junkos_scheduler_init` on a table with blocked
tasks of priorities 1 and 3 and a ready task of priority 2 (id 11) the ready queue is `[1]`
and the blocked queue `[0, 2]`; one dispatch-loop iteration selects task 1 and leaves the
ready queue empty and the blocked queue `[0, 2]`, without task 1; the following
`junkos_scheduler_set_task_runnable(11)` returns `false` and the ready queue stays empty. -/
theorem C2_dispatched_task_not_blocked :
    (junkos_run 5 (memOfTable table_ready_middle) gbl_context (some 0) 3 []).map
        (fun s => queues 5 s.1 s.2) = some (some [1], some [0, 2]) ∧
    ((junkos_run 5 (memOfTable table_ready_middle) gbl_context (some 0) 3 []).bind
        (fun s => junkos_scheduler_iteration 5 s.1 s.2)).map
        (fun r => (r.1, queues 5 r.2.1 r.2.2)) = some (some 1, some [], some [0, 2]) ∧
    ((junkos_run 5 (memOfTable table_ready_middle) gbl_context (some 0) 3
          [junkos_event.dispatch]).bind
        (fun s => junkos_scheduler_set_task_runnable 5 s.1 s.2 11)).map
        (fun r => (r.1, queues 5 r.2.1 r.2.2)) = some (false, some [], some [0, 2]) := by
  decide

/-- C3 (code at the failing input): `junkos_scheduler_init` on a table of three descriptors
with callbacks, all with `auto_run` set, of priorities 1, 3, 2, returns `true` with the ready
queue `[0, 1]` and the blocked queue empty: descriptor 2 is on neither queue. -/
theorem C3_init_loses_task :
    (junkos_scheduler_init 5 (memOfTable table_ready_1_3_2) gbl_context (some 0) 3).map
        (fun r => (r.1, queues 5 r.2.1 r.2.2)) = some (true, some [0, 1], some []) := by
  decide

/-- C4 (code at the failing input): the queue `[0, 1]` holds priorities 1 and 3, task 2 has
priority 2 and a cleared link; `junkos_put_task_on_list_in_priority_order` leaves the queue
`[0, 1]`, without task 2, where the claim puts `[0, 2, 1]`. -/
theorem C4_put_in_the_middle_loses_task :
    IsList (memOfTable table_linked_1_3) (some 0) [0, 1] ∧
    Ascending (memOfTable table_linked_1_3) [0, 1] ∧
    (memOfTable table_linked_1_3 2).next = none ∧
    (junkos_put_task_on_list_in_priority_order 5 (memOfTable table_linked_1_3) (some 0) 2).map
        (fun r => queue 5 r.1 r.2) = some (some [0, 1]) := by
  decide

/-- C5 (code at the failing input): inserting the tasks 0, 1, 2, 3 of priorities 3, 1, 2, 1
in that order into an empty queue and popping until the queue is empty returns `[1, 0]`
(priorities 1, 3), where the stable sort by priority is `[1, 3, 2, 0]`. -/
theorem C5_insert_3_1_2_1_pops_two :
    ((put_all 5 [0, 1, 2, 3] (memOfTable table_3_1_2_1) none).bind
        (fun r => pop_all 5 r.1 r.2)) = some [1, 0] := by
  decide

/-- Witness of C6 at `five_state`: the ready queue is `[1, 2]` with priorities 3 and 5, the
blocked queue `[0, 3, 4]`; the next iteration selects task 1, the more urgent of the two. -/
theorem C6_witness :
    (junkos_run 8 (memOfTable table_five) gbl_context (some 0) 5 five_events
        = some (five_state.1, five_state.2) ∧
      queues 8 five_state.1 five_state.2 = (some [1, 2], some [0, 3, 4]) ∧
      [1, 2].map (fun a => (five_state.1 a).priority) = [3, 5]) ∧
    ∃ R, IsList five_state.1 five_state.2.task_ready_head R ∧
      ∀ fuel', 5 < fuel' →
        ∃ mem' context', junkos_scheduler_iteration fuel' five_state.1 five_state.2
            = some (R.head?, mem', context') ∧
          (∀ t, R.head? = some t → ∀ a ∈ R,
            (five_state.1 t).priority ≤ (five_state.1 a).priority) ∧
          IsList mem' context'.task_ready_head R.tail :=
  ⟨⟨rfl, by decide, by decide⟩,
    C6_dispatch_selects_most_urgent 8 (memOfTable table_five) five_state.1 gbl_context
      five_state.2 (some 0) 5 five_events rfl⟩

/-- Witness of C7 at `main_state`, whose ready queue is `[1]`, for the id 2 of task 1. -/
theorem C7_witness :
    IsList main_state.1 main_state.2.task_ready_head [1] ∧ (main_state.1 1).id = 2 ∧
    junkos_scheduler_set_task_runnable 5 main_state.1 main_state.2 2
      = some (false, main_state.1, main_state.2) :=
  ⟨by decide, by decide,
    C7_set_task_runnable_rejects 5 0 2 (memOfTable junkos_tasks) main_state.1 gbl_context
      main_state.2 [junkos_event.dispatch, junkos_event.set_runnable 2] rfl (by decide) 2 [1]
      (by decide) (Or.inl ⟨1, by decide, by decide⟩) 5 (by decide)⟩

/-- Witness of C8 on the table of `main.c`. -/
theorem C8_witness :
    (2 ≤ 255 ∧ 2 < 5) ∧
    ∃ flag mem' context', junkos_scheduler_init 5 (memOfTable junkos_tasks) gbl_context (some 0) 2
        = some (flag, mem', context') ∧
      (flag = true ↔
        ∃ base, some 0 = some base ∧ 2 ≠ 0 ∧
          ∀ i, i < 2 → (memOfTable junkos_tasks (base + i)).run ≠ none) :=
  ⟨by decide, C8_init_result 5 (memOfTable junkos_tasks) gbl_context (some 0) 2 (by decide)
    (by decide)⟩

/-- C9 (counterexample): after a successful `junkos_scheduler_init` on the table of `main.c`
the call `junkos_scheduler_init(NULL, 0)` reports failure and the ready queue is still `[0]`
and the blocked queue still `[1]`: neither is empty. -/
theorem C9_null_table_keeps_queues :
    ((junkos_scheduler_init 5 (memOfTable junkos_tasks) gbl_context (some 0) 2).bind
        (fun s => junkos_scheduler_init 5 s.2.1 s.2.2 none 0)).map
        (fun r => (r.1, queues 5 r.2.1 r.2.2)) = some (false, some [0], some [1]) := by
  decide

/-- Witness of C9 (amended) on a table whose second descriptor has a `NULL` callback. -/
theorem C9_witness :
    junkos_scheduler_init 5 (memOfTable table_null_run) gbl_context (some 0) 2
      = some (false, setNext (memOfTable table_null_run) 0 none, gbl_context) ∧
    (((some 0 : Option Nat) = none ∨ 2 = 0) →
      setNext (memOfTable table_null_run) 0 none = memOfTable table_null_run ∧
        gbl_context = gbl_context) ∧
    (((some 0 : Option Nat) ≠ none ∧ 2 ≠ 0) →
      gbl_context.task_ready_head = none ∧ gbl_context.task_blocked_head = none) :=
  ⟨rfl, C9_failed_init_queues 5 (memOfTable table_null_run)
    (setNext (memOfTable table_null_run) 0 none) gbl_context gbl_context (some 0) 2 rfl⟩

/-- Witness of C10 on the queue `[0, 1]` (ids 10, 11) and the id 11. -/
theorem C10_witness :
    (IsList (memOfTable table_linked_1_3) (some 0) [0, 1] ∧ [0, 1].length < 5) ∧
    (∀ l₁ a l₂, [0, 1] = l₁ ++ a :: l₂ → (memOfTable table_linked_1_3 a).id = 11 →
      (∀ b ∈ l₁, (memOfTable table_linked_1_3 b).id ≠ 11) →
      ∃ mem' head', junkos_delete_task_from_list 5 (memOfTable table_linked_1_3) (some 0) 11
          = some (some a, mem', head') ∧
        (mem' a).next = none ∧ IsList mem' head' (l₁ ++ l₂) ∧
        SameData (memOfTable table_linked_1_3) mem') ∧
    ((∀ b ∈ [0, 1], (memOfTable table_linked_1_3 b).id ≠ 11) →
      junkos_delete_task_from_list 5 (memOfTable table_linked_1_3) (some 0) 11
        = some (none, memOfTable table_linked_1_3, some 0)) :=
  ⟨by decide, C10_delete_task_from_list 5 (memOfTable table_linked_1_3) (some 0) 11 [0, 1]
    (by decide) (by decide)⟩

/-! ## Dispatch from disjoint lists -/

theorem put_effect_length_le (mem : Mem) (task : Nat) (l : List Nat) :
    (put_effect mem task l).length ≤ l.length + 1 := by
  cases l with
  | nil => simp [put_effect]
  | cons a l =>
    rw [put_effect_cons]
    split_ifs <;> simp

theorem iteration_lists {mem : Mem} {context : junkos_scheduler_context_t} {t : Nat}
    {R B : List Nat} (fuel : Nat)
    (hR : IsList mem context.task_ready_head (t :: R))
    (hB : IsList mem context.task_blocked_head B)
    (hnd : (t :: R ++ B).Nodup) (hf : B.length < fuel) :
    ∃ mem' context' B', junkos_scheduler_iteration fuel mem context
        = some (some t, mem', context') ∧
      IsList mem' context'.task_ready_head R ∧ IsList mem' context'.task_blocked_head B' ∧
      (R ++ B').Nodup ∧ B'.length ≤ B.length + 1 ∧ SameData mem mem' := by
  have hh : context.task_ready_head = some t := hR.1
  have hnd' : (t :: (R ++ B)).Nodup := hnd
  have htn : t ∉ R ++ B := (List.nodup_cons.1 hnd').1
  have htB : t ∉ B := fun h => htn (List.mem_append_right _ h)
  have hndRB := List.nodup_append.1 (List.nodup_cons.1 hnd').2
  have hfr : ∀ a ∈ R ++ B, (setNext mem t none a).next = (mem a).next := by
    intro a ha
    have hat : a ≠ t := by
      rintro rfl
      exact htn ha
    rw [setNext_ne _ _ hat]
  have hR1 : IsList (setNext mem t none) (mem t).next R :=
    hR.2.frame (fun a ha => hfr a (List.mem_append_left _ ha))
  have hB1 : IsList (setNext mem t none) context.task_blocked_head B :=
    hB.frame (fun a ha => hfr a (List.mem_append_right _ ha))
  obtain ⟨mem2, bh, e2, hl, hsd, hfr2⟩ :=
    put_spec fuel (setNext mem t none) context.task_blocked_head t B hB1 htB
      (setNext_next_same mem t none) hf
  refine ⟨mem2, { context with task_ready_head := (mem t).next, task_blocked_head := bh },
    put_effect (setNext mem t none) t B, ?_, ?_, hl, ?_, put_effect_length_le _ _ _,
    ((SameData.refl mem).setNext t none).trans hsd⟩
  · simp only [junkos_scheduler_iteration, hh, junkos_pop_task_off_list_in_priority_order, e2]
  · refine hR1.frame ?_
    intro a ha
    have haB : a ∉ B := fun h => hndRB.2.2 ha h
    have hat : a ≠ t := by
      rintro rfl
      exact htn (List.mem_append_left _ ha)
    rw [hfr2 a haB hat]
  · refine List.nodup_append.2 ⟨hndRB.1, put_effect_nodup hndRB.2.1 htB, ?_⟩
    intro a ha ha₂
    rcases mem_put_effect ha₂ with rfl | ha₁
    · exact htn (List.mem_append_left _ ha)
    · exact hndRB.2.2 ha ha₁

theorem iteration_idle (fuel : Nat) (mem : Mem) (context : junkos_scheduler_context_t)
    (h : context.task_ready_head = none) :
    junkos_scheduler_iteration fuel mem context = some (none, mem, context) := by
  simp only [junkos_scheduler_iteration, h, junkos_pop_task_off_list_in_priority_order]
  congr
  cases context
  simp_all

theorem dispatch_iterations_succ (fuel k : Nat) (mem : Mem)
    (context : junkos_scheduler_context_t) :
    dispatch_iterations fuel (k + 1) mem context =
      match junkos_scheduler_iteration fuel mem context with
      | none => none
      | some (t, mem1, context1) =>
        match dispatch_iterations fuel k mem1 context1 with
        | none => none
        | some (ts, mem2, context2) => some (t :: ts, mem2, context2) := rfl

theorem dispatch_iterations_lists (fuel : Nat) :
    ∀ (R B : List Nat) (mem : Mem) (context : junkos_scheduler_context_t),
      IsList mem context.task_ready_head R → IsList mem context.task_blocked_head B →
      (R ++ B).Nodup → R.length + B.length < fuel →
      ∃ mem' context', dispatch_iterations fuel (R.length + 1) mem context
          = some (R.map some ++ [none], mem', context') ∧
        context'.task_ready_head = none ∧ SameData mem mem' := by
  intro R
  induction R with
  | nil =>
    intro B mem context hR _ _ _
    have hh : context.task_ready_head = none := hR
    refine ⟨mem, context, ?_, hh, SameData.refl mem⟩
    simp [dispatch_iterations, iteration_idle fuel mem context hh]
  | cons t R ih =>
    intro B mem context hR hB hnd hf
    simp only [List.length_cons] at hf
    obtain ⟨mem₁, context₁, B', e₁, hR₁, hB₁, hnd₁, hlen, hsd₁⟩ :=
      iteration_lists fuel hR hB hnd (by omega)
    obtain ⟨mem', context', e, hh, hsd⟩ := ih B' mem₁ context₁ hR₁ hB₁ hnd₁ (by omega)
    refine ⟨mem', context', ?_, hh, hsd₁.trans hsd⟩
    rw [show (t :: R).length + 1 = (R.length + 1) + 1 from rfl, dispatch_iterations_succ, e₁]
    simp only []
    rw [e]
    rfl

/-- C11: in a scheduler state whose ready queue is the list `R` of `N` tasks, all of equal
priority, whose blocked queue is a list `B` and where no task is linked twice, `N + 1`
consecutive dispatch-loop iterations with no `junkos_scheduler_set_task_runnable` call in
between return (with fuel above the number of queued tasks) and select the tasks of `R`,
each once, in the order of `R`, and then, in the last iteration, no task. -/
theorem C11_equal_priority_round (fuel : Nat) (mem : Mem) (context : junkos_scheduler_context_t)
    (R B : List Nat) (hR : IsList mem context.task_ready_head R)
    (hB : IsList mem context.task_blocked_head B) (hnd : (R ++ B).Nodup)
    (hprio : ∀ a ∈ R, ∀ b ∈ R, (mem a).priority = (mem b).priority)
    (hf : R.length + B.length < fuel) :
    R.Nodup ∧
    ∃ mem' context', dispatch_iterations fuel (R.length + 1) mem context
        = some (R.map some ++ [none], mem', context') ∧
      (∀ a ∈ R, ∀ b ∈ R, (mem' a).priority = (mem' b).priority) := by
  obtain ⟨mem', context', e, _, hsd⟩ := dispatch_iterations_lists fuel R B mem context hR hB hnd hf
  refine ⟨(List.nodup_append.1 hnd).1, mem', context', e, ?_⟩
  intro a ha b hb
  rw [hsd.priority a, hsd.priority b]
  exact hprio a ha b hb

/-- C12: in a scheduler state whose ready queue is empty, one dispatch-loop iteration (with
any fuel) selects no task and leaves the memory and the scheduler context, hence both
queues, unchanged. -/
theorem C12_idle_iteration (fuel : Nat) (mem : Mem) (context : junkos_scheduler_context_t)
    (h : context.task_ready_head = none) :
    junkos_scheduler_iteration fuel mem context = some (none, mem, context) :=
  iteration_idle fuel mem context h

/-- C17: for a queue that is a `NULL`-terminated list, `junkos_pop_task_off_list_in_priority_order`
returns exactly what `junkos_delete_task_from_list` returns for the id of the head (the same
task, memory and head pointer): the old head with its link cleared, leaving the list without
its first element; on the empty queue it returns `NULL` and leaves the queue empty. -/
theorem C17_pop_is_delete_of_head (fuel : Nat) (mem : Mem) (head : Option Nat) (l : List Nat)
    (h : IsList mem head l) (hf : 0 < fuel) :
    (∀ a l', l = a :: l' →
      junkos_delete_task_from_list fuel mem head (mem a).id
        = some (junkos_pop_task_off_list_in_priority_order mem head) ∧
      ∃ mem' head', junkos_pop_task_off_list_in_priority_order mem head = (some a, mem', head') ∧
        (mem' a).next = none ∧ IsList mem' head' l') ∧
    (l = [] → junkos_pop_task_off_list_in_priority_order mem head = (none, mem, none) ∧
      head = none) := by
  constructor
  · rintro a l' rfl
    have hh : head = some a := h.1
    subst hh
    have hnd := h.nodup
    obtain ⟨f, rfl⟩ : ∃ f, fuel = f + 1 := ⟨fuel - 1, by omega⟩
    refine ⟨?_, setNext mem a none, (mem a).next, rfl, setNext_next_same mem a none, ?_⟩
    · simp [junkos_delete_task_from_list, delete_loop, junkos_pop_task_off_list_in_priority_order]
    · refine h.2.frame ?_
      intro b hb
      have hba : b ≠ a := by
        rintro rfl
        exact (List.nodup_cons.1 hnd).1 hb
      rw [setNext_ne _ _ hba]
  · rintro rfl
    have hh : head = none := h
    subst hh
    exact ⟨rfl, rfl⟩

/-! ## Invariants of the reachable states -/

theorem IsList.next_mem {mem : Mem} {head : Option Nat} {l : List Nat} {a b : Nat}
    (h : IsList mem head l) (ha : a ∈ l) (hb : (mem a).next = some b) : b ∈ l := by
  obtain ⟨s, t, rfl⟩ := List.append_of_mem ha
  have hs : IsList mem (mem a).next t := h.suffix
  rw [hb] at hs
  cases t with
  | nil => cases (hs : some b = none)
  | cons c t =>
    have e : some b = some c := hs.1
    cases e
    simp

theorem event_spec {base n : Nat} {mem : Mem} {context : junkos_scheduler_context_t}
    {R B : List Nat}
    (q : Queues base n mem context.task_ready_head context.task_blocked_head R B)
    (fuel : Nat) (hf : n < fuel) (ev : junkos_event) :
    ∃ mem' context' R' B', run_events fuel [ev] mem context = some (mem', context') ∧
      Queues base n mem' context'.task_ready_head context'.task_blocked_head R' B' ∧
      R'.length + B'.length ≤ R.length + B.length ∧ SameData mem mem' := by
  cases ev with
  | dispatch =>
    obtain ⟨mem', context', e, q', hsd, _, _, _⟩ := iteration_spec q fuel hf
    refine ⟨mem', context', _, _, ?_, q', ?_, hsd⟩
    · simp [run_events, e]
    · cases R with
      | nil => simp [blocked_after_iteration]
      | cons t R =>
        have := put_effect_length_le mem t B
        simp only [blocked_after_iteration, List.head?_cons, List.tail_cons, List.length_cons]
        omega
  | set_runnable task_id =>
    obtain ⟨mem', context', e, q', hsd, _, _, _⟩ := set_task_runnable_spec q fuel task_id hf
    refine ⟨mem', context', _, _, ?_, q', ?_, hsd⟩
    · simp [run_events, e]
    · cases hfind : B.find? (hasId mem task_id) with
      | none =>
        rw [List.eraseP_of_forall_not (List.find?_eq_none.1 hfind)]
        simp [ready_after_set_runnable, hfind]
      | some t =>
        have h₁ := put_effect_length_le mem t R
        have h₂ := List.length_eraseP_of_mem (List.mem_of_find?_eq_some hfind)
          (List.find?_some hfind)
        have h₃ : 0 < B.length := List.length_pos_of_mem (List.mem_of_find?_eq_some hfind)
        simp only [ready_after_set_runnable, hfind]
        omega

/-- C14: priority order is an invariant of both queues. In every state reached from a
successful `junkos_scheduler_init` by dispatch-loop iterations and
`junkos_scheduler_set_task_runnable` calls both queues are lists whose priorities do not
decrease from head to tail; and each of the three list operations (insertion of a task that
is not on the list, removal by id, pop-head) returns and maps a priority-ascending list to a
priority-ascending list. -/
theorem C14_priority_order_invariant :
    (∀ (fuel : Nat) (mem₀ mem : Mem) (context₀ context : junkos_scheduler_context_t)
        (tasks : Option Nat) (n : Nat) (evs : List junkos_event),
      junkos_run fuel mem₀ context₀ tasks n evs = some (mem, context) →
      ∃ R B, IsList mem context.task_ready_head R ∧ IsList mem context.task_blocked_head B ∧
        Ascending mem R ∧ Ascending mem B) ∧
    (∀ (fuel : Nat) (mem : Mem) (head : Option Nat) (task : Nat) (l : List Nat),
      IsList mem head l → Ascending mem l → task ∉ l → (mem task).next = none →
      l.length < fuel →
      ∃ mem' head' l', junkos_put_task_on_list_in_priority_order fuel mem head task
          = some (mem', head') ∧ IsList mem' head' l' ∧ Ascending mem' l') ∧
    (∀ (fuel : Nat) (mem : Mem) (head : Option Nat) (task_id : Nat) (l : List Nat),
      IsList mem head l → Ascending mem l → l.length < fuel →
      ∃ r mem' head' l', junkos_delete_task_from_list fuel mem head task_id
          = some (r, mem', head') ∧ IsList mem' head' l' ∧ Ascending mem' l') ∧
    (∀ (mem : Mem) (head : Option Nat) (l : List Nat),
      IsList mem head l → Ascending mem l →
      ∃ r mem' head' l', junkos_pop_task_off_list_in_priority_order mem head
          = (r, mem', head') ∧ IsList mem' head' l' ∧ Ascending mem' l') := by
  refine ⟨?_, ?_, ?_, ?_⟩
  · intro fuel mem₀ mem context₀ context tasks n evs h
    obtain ⟨base, R, B, _, _, _, q, _, _, _⟩ := junkos_run_inv h
    exact ⟨R, B, q.first, q.second, q.asc₁, q.asc₂⟩
  · intro fuel mem head task l hl hasc ht hn hf
    obtain ⟨mem', head', e, hl', hsd, _⟩ := put_spec fuel mem head task l hl ht hn hf
    exact ⟨mem', head', _, e, hl', (put_effect_ascending hasc).of_sameData hsd⟩
  · intro fuel mem head task_id l hl hasc hf
    obtain ⟨mem', head', e, hl', _, _, hsd, _⟩ := delete_spec fuel mem head task_id l hl hf
    exact ⟨_, mem', head', _, e, hl',
      Ascending.of_sameData (List.Pairwise.sublist (List.eraseP_sublist l) hasc) hsd⟩
  · intro mem head l hl hasc
    cases l with
    | nil =>
      have hh : head = none := hl
      subst hh
      exact ⟨none, mem, none, [], rfl, rfl, List.Pairwise.nil⟩
    | cons a l =>
      have hh : head = some a := hl.1
      subst hh
      have hnd := hl.nodup
      refine ⟨some a, setNext mem a none, (mem a).next, l, rfl, ?_, ?_⟩
      · refine hl.2.frame ?_
        intro b hb
        have hba : b ≠ a := by
          rintro rfl
          exact (List.nodup_cons.1 hnd).1 hb
        rw [setNext_ne _ _ hba]
      · exact Ascending.of_sameData (List.Pairwise.of_cons hasc)
          ((SameData.refl mem).setNext a none)

/-- C15: in every state reached from a successful `junkos_scheduler_init` by dispatch-loop
iterations and `junkos_scheduler_set_task_runnable` calls, following the `next` links from
the ready head and from the blocked head reaches `NULL` within `n + 1` steps (`n` the table
size), visiting the lists `R` and `B`; no task occurs twice on a list, and the `next` link of
a task of one queue, when not `NULL`, leads to a task of the same queue and never to a task
of the other queue. -/
theorem C15_queues_acyclic (fuel : Nat) (mem₀ mem : Mem)
    (context₀ context : junkos_scheduler_context_t) (tasks : Option Nat) (n : Nat)
    (evs : List junkos_event)
    (h : junkos_run fuel mem₀ context₀ tasks n evs = some (mem, context)) :
    ∃ R B, IsList mem context.task_ready_head R ∧ IsList mem context.task_blocked_head B ∧
      R.Nodup ∧ B.Nodup ∧
      (∀ fuel', n < fuel' → queue fuel' mem context.task_ready_head = some R ∧
        queue fuel' mem context.task_blocked_head = some B) ∧
      (∀ a ∈ R, ∀ b, (mem a).next = some b → b ∈ R ∧ b ∉ B) ∧
      (∀ a ∈ B, ∀ b, (mem a).next = some b → b ∈ B ∧ b ∉ R) := by
  obtain ⟨base, R, B, _, _, _, q, _, _, _⟩ := junkos_run_inv h
  have hnd := List.nodup_append.1 q.nodup
  have hlen := q.length_le
  refine ⟨R, B, q.first, q.second, hnd.1, hnd.2.1, ?_, ?_, ?_⟩
  · intro fuel' hf
    exact ⟨queue_of_isList q.first fuel' (by omega), queue_of_isList q.second fuel' (by omega)⟩
  · intro a ha b hb
    have hbR := q.first.next_mem ha hb
    exact ⟨hbR, fun hbB => hnd.2.2 hbR hbB⟩
  · intro a ha b hb
    have hbB := q.second.next_mem ha hb
    exact ⟨hbB, fun hbR => hnd.2.2 hbR hbB⟩

/-- C19: in every state reached from a successful `junkos_scheduler_init` by dispatch-loop
iterations and `junkos_scheduler_set_task_runnable` calls, no task occurs twice on the two
queues taken together (so none twice on one queue and none on both), every queued task is a
descriptor of the registered table, the two queues together hold at most as many tasks as
the table has descriptors, and every further step (a dispatch-loop iteration or a
`junkos_scheduler_set_task_runnable` call) returns and leaves queues that together hold no
more tasks than before. -/
theorem C19_no_task_duplicated (fuel : Nat) (mem₀ mem : Mem)
    (context₀ context : junkos_scheduler_context_t) (tasks : Option Nat) (n : Nat)
    (evs : List junkos_event)
    (h : junkos_run fuel mem₀ context₀ tasks n evs = some (mem, context)) :
    ∃ base R B, tasks = some base ∧ context.task_table = some base ∧
      context.task_table_size = n ∧
      IsList mem context.task_ready_head R ∧ IsList mem context.task_blocked_head B ∧
      (R ++ B).Nodup ∧ (∀ a ∈ R ++ B, ∃ i, i < n ∧ a = base + i) ∧
      R.length + B.length ≤ n ∧
      ∀ fuel', n < fuel' → ∀ ev : junkos_event,
        ∃ mem' context' R' B', run_events fuel' [ev] mem context = some (mem', context') ∧
          IsList mem' context'.task_ready_head R' ∧ IsList mem' context'.task_blocked_head B' ∧
          R'.length + B'.length ≤ R.length + B.length := by
  obtain ⟨base, R, B, ht, _, _, q, _, ht₁, ht₂⟩ := junkos_run_inv h
  refine ⟨base, R, B, ht, ht₁, ht₂, q.first, q.second, q.nodup, ?_, q.length_le, ?_⟩
  · intro a ha
    have := q.inTable a ha
    exact ⟨a - base, by omega, by omega⟩
  · intro fuel' hf ev
    obtain ⟨mem', context', R', B', e, q', hlen, _⟩ := event_spec q fuel' hf ev
    exact ⟨mem', context', R', B', e, q'.first, q'.second, hlen⟩

/-! ## Failing and diverging initialisation -/

theorem init_loop_table_fields {fuel base n : Nat} :
    ∀ {k i : Nat} {mem mem' : Mem} {context context' : junkos_scheduler_context_t} {flag : Bool},
      init_loop fuel k mem context base n i = some (flag, mem', context') →
      context'.task_table = context.task_table ∧
        context'.task_table_size = context.task_table_size := by
  intro k
  induction k with
  | zero => intro i mem mem' context context' flag e; simp [init_loop] at e
  | succ k ih =>
    intro i mem mem' context context' flag e
    by_cases hin : i < n
    · by_cases hrun : (mem (base + i)).run = none
      · simp only [init_loop, hin, hrun, if_true, Option.some.injEq, Prod.mk.injEq] at e
        obtain ⟨_, _, rfl⟩ := e
        exact ⟨rfl, rfl⟩
      · by_cases hauto : (setNext mem (base + i) none (base + i)).auto_run = true
        · simp only [init_loop, hin, hrun, hauto, if_true, if_false, Bool.false_eq_true] at e
          cases hp : junkos_put_task_on_list_in_priority_order fuel
              (setNext mem (base + i) none) context.task_ready_head (base + i) with
          | none => simp [hp] at e
          | some y =>
            simp only [hp] at e
            obtain ⟨h₁, h₂⟩ := ih e
            exact ⟨h₁, h₂⟩
        · simp only [init_loop, hin, hrun, hauto, if_true, if_false, Bool.false_eq_true] at e
          cases hp : junkos_put_task_on_list_in_priority_order fuel
              (setNext mem (base + i) none) context.task_blocked_head (base + i) with
          | none => simp [hp] at e
          | some y =>
            simp only [hp] at e
            obtain ⟨h₁, h₂⟩ := ih e
            exact ⟨h₁, h₂⟩
    · simp only [init_loop, hin, if_false, Option.some.injEq, Prod.mk.injEq] at e
      obtain ⟨_, _, rfl⟩ := e
      exact ⟨rfl, rfl⟩

theorem put_loop_sameData {head : Option Nat} {task : Nat} :
    ∀ {fuel : Nat} {mem mem' : Mem} {prev current head' : Option Nat},
      put_loop fuel mem head task prev current = some (mem', head') → SameData mem mem' := by
  intro fuel
  induction fuel with
  | zero => intro mem mem' prev current head' e; simp [put_loop] at e
  | succ f ih =>
    intro mem mem' prev current head' e
    have hP : ∀ (p n : Option Nat), SameData mem (setNextP mem p n) := by
      intro p n
      cases p with
      | none => exact SameData.refl mem
      | some a => exact (SameData.refl mem).setNext a n
    cases current with
    | none =>
      simp only [put_loop, Option.some.injEq, Prod.mk.injEq] at e
      obtain ⟨rfl, _⟩ := e
      exact (hP prev (some task)).setNext task none
    | some cur =>
      by_cases hpr : (mem cur).priority > (mem task).priority
      · by_cases hh : some cur = head
        · simp only [put_loop, hpr, if_true, hh, Option.some.injEq, Prod.mk.injEq] at e
          obtain ⟨rfl, _⟩ := e
          exact (SameData.refl mem).setNext task _
        · simp only [put_loop, hpr, if_true, hh, if_false, Option.some.injEq,
            Prod.mk.injEq] at e
          obtain ⟨rfl, _⟩ := e
          exact (hP prev (some cur)).setNext task _
      · simp only [put_loop, hpr, if_false] at e
        exact ih e

theorem put_sameData {fuel : Nat} {mem mem' : Mem} {head head' : Option Nat} {task : Nat}
    (e : junkos_put_task_on_list_in_priority_order fuel mem head task = some (mem', head')) :
    SameData mem mem' := by
  cases head with
  | none =>
    simp only [junkos_put_task_on_list_in_priority_order, Option.some.injEq,
      Prod.mk.injEq] at e
    obtain ⟨rfl, _⟩ := e
    exact SameData.refl mem
  | some a => exact put_loop_sameData e

theorem init_loop_diverges {fuel base n : Nat} (hn : 256 ≤ n) :
    ∀ (k i : Nat) (mem : Mem) (context : junkos_scheduler_context_t),
      i < 256 → (∀ j, j < 256 → (mem (base + j)).run ≠ none) →
      init_loop fuel k mem context base n i = none := by
  intro k
  induction k with
  | zero => intro i mem context _ _; rfl
  | succ k ih =>
    intro i mem context hi hrun
    have hin : i < n := by omega
    have hr : ¬ (mem (base + i)).run = none := hrun i hi
    have hmod : (i + 1) % 256 < 256 := Nat.mod_lt _ (by decide)
    have hsd0 : SameData mem (setNext mem (base + i) none) :=
      (SameData.refl mem).setNext _ _
    by_cases hauto : (setNext mem (base + i) none (base + i)).auto_run = true
    · simp only [init_loop, hin, hr, hauto, if_true, if_false, Bool.false_eq_true]
      cases hp : junkos_put_task_on_list_in_priority_order fuel
          (setNext mem (base + i) none) context.task_ready_head (base + i) with
      | none => rfl
      | some y =>
        obtain ⟨mem2, head2⟩ := y
        have hsd := hsd0.trans (put_sameData hp)
        exact ih _ mem2 _ hmod (fun j hj => by rw [hsd.run]; exact hrun j hj)
    · simp only [init_loop, hin, hr, hauto, if_true, if_false, Bool.false_eq_true]
      cases hp : junkos_put_task_on_list_in_priority_order fuel
          (setNext mem (base + i) none) context.task_blocked_head (base + i) with
      | none => rfl
      | some y =>
        obtain ⟨mem2, head2⟩ := y
        have hsd := hsd0.trans (put_sameData hp)
        exact ih _ mem2 _ hmod (fun j hj => by rw [hsd.run]; exact hrun j hj)

theorem init_diverges (fuel base n : Nat) (mem : Mem) (context : junkos_scheduler_context_t)
    (hn : 256 ≤ n) (hrun : ∀ j, j < 256 → (mem (base + j)).run ≠ none) :
    junkos_scheduler_init fuel mem context (some base) n = none := by
  have hn0 : n ≠ 0 := by omega
  simp only [junkos_scheduler_init, hn0, if_false]
  rw [init_loop_diverges hn fuel 0 mem _ (by decide) hrun]

/-- C13 (code at the failing input): after `junkos_scheduler_init` on a table with ready
tasks of priorities 1 and 3 and a blocked task of priority 2 (id 12), a
`junkos_scheduler_set_task_runnable(12)` call and one dispatch-loop iteration, the ready
queue is `[1]` and the blocked queue `[0]`: the registered task 2 is on neither queue. -/
theorem C13_registered_task_on_no_queue :
    (junkos_run 5 (memOfTable table_blocked_middle) gbl_context (some 0) 3
        [junkos_event.set_runnable 12, junkos_event.dispatch]).map
        (fun s => queues 5 s.1 s.2) = some (some [1], some [0]) := by
  decide

/-- C16 (counterexample): after a successful `junkos_scheduler_init` on the table of `main.c`
the context holds the table at address 0, size 2, ready head 0 and blocked head 1; a second
call on the one-descriptor table at address 2, whose callback is `NULL`, reports failure and
leaves the table reference `NULL`, the size 0 and both heads `NULL`. -/
theorem C16_failed_init_resets_state :
    (junkos_scheduler_init 5 (memOfTable table_main_then_null) gbl_context (some 0) 2).map
        (fun s => (s.1, s.2.2)) = some (true, ⟨some 0, 2, some 0, some 1⟩) ∧
    ((junkos_scheduler_init 5 (memOfTable table_main_then_null) gbl_context (some 0) 2).bind
        (fun s => junkos_scheduler_init 5 s.2.1 s.2.2 (some 2) 1)).map
        (fun r => (r.1, r.2.2)) = some (false, ⟨none, 0, none, none⟩) := by
  decide

/-- C16 (amended): a `junkos_scheduler_init` call that reports failure because the table
pointer is `NULL` or `num_tasks` is 0 leaves the memory and the whole scheduler context
(ready queue, blocked queue, table reference and size) identical to what they were before
the call; a call that reports failure for a table that is not `NULL` with `num_tasks` not 0
(some descriptor has a `NULL` callback) leaves the reset context: table reference `NULL`,
size 0, both queues empty. -/
theorem C16_failed_init_state (fuel : Nat) (mem mem' : Mem)
    (context context' : junkos_scheduler_context_t) (tasks : Option Nat) (n : Nat)
    (h : junkos_scheduler_init fuel mem context tasks n = some (false, mem', context')) :
    ((tasks = none ∨ n = 0) → mem' = mem ∧ context' = context) ∧
    ((tasks ≠ none ∧ n ≠ 0) →
      context' = { task_table := none, task_table_size := 0, task_ready_head := none,
                   task_blocked_head := none }) := by
  constructor
  · intro hc
    have e : junkos_scheduler_init fuel mem context tasks n = some (false, mem, context) := by
      rcases hc with rfl | rfl
      · rfl
      · cases tasks <;> simp [junkos_scheduler_init]
    rw [e] at h
    simp only [Option.some.injEq, Prod.mk.injEq, true_and] at h
    exact ⟨h.1.symm, h.2.symm⟩
  · rintro ⟨ht, hn0⟩
    cases tasks with
    | none => exact absurd rfl ht
    | some base =>
      unfold junkos_scheduler_init at h
      simp only [hn0, if_false] at h
      cases hl : init_loop fuel fuel mem
          { context with task_table := none, task_table_size := 0, task_ready_head := none,
                         task_blocked_head := none } base n 0 with
      | none => simp [hl] at h
      | some y =>
        obtain ⟨flag, m, c⟩ := y
        cases flag with
        | true => simp [hl] at h
        | false =>
          obtain ⟨h₁, h₂⟩ := init_loop_table_fields hl
          simp only [hl, Option.some.injEq, Prod.mk.injEq, true_and] at h
          obtain ⟨_, rfl⟩ := h
          simp only at h₁ h₂
          rw [h₁, h₂]

/-- Witness of C16 (amended): a failing call on a table whose second descriptor has a `NULL`
callback, from a context left by earlier use. -/
theorem C16_witness :
    junkos_scheduler_init 5 (memOfTable table_null_run) ⟨some 7, 3, some 5, some 6⟩ (some 0) 2
      = some (false, setNext (memOfTable table_null_run) 0 none, ⟨none, 0, none, none⟩) ∧
    (((some 0 : Option Nat) = none ∨ 2 = 0) →
      setNext (memOfTable table_null_run) 0 none = memOfTable table_null_run ∧
        (⟨none, 0, none, none⟩ : junkos_scheduler_context_t) = ⟨some 7, 3, some 5, some 6⟩) ∧
    (((some 0 : Option Nat) ≠ none ∧ 2 ≠ 0) →
      (⟨none, 0, none, none⟩ : junkos_scheduler_context_t) =
        { task_table := none, task_table_size := 0, task_ready_head := none,
          task_blocked_head := none }) :=
  ⟨rfl, C16_failed_init_state 5 (memOfTable table_null_run)
    (setNext (memOfTable table_null_run) 0 none) ⟨some 7, 3, some 5, some 6⟩
    ⟨none, 0, none, none⟩ (some 0) 2 rfl⟩

/-- C18 (code at the failing input): on a table of 256 descriptors that all have callbacks
(ids 0 to 255) `junkos_scheduler_init(tasks, 256)` does not return, whatever the fuel: the
8-bit counter wraps from 255 to 0 and `task_index < num_tasks` stays true. -/
theorem C18_init_256_never_returns (fuel : Nat) :
    junkos_scheduler_init fuel mem_all_valid gbl_context (some 0) 256 = none :=
  init_diverges fuel 0 256 mem_all_valid gbl_context (Nat.le_refl 256)
    (fun j _ => by simp [mem_all_valid])

/-! ## Tables of one priority -/

theorem put_effect_append {mem : Mem} {task : Nat} {l : List Nat}
    (h : ∀ a ∈ l, (mem a).priority ≤ (mem task).priority) :
    put_effect mem task l = l ++ [task] := by
  cases l with
  | nil => rfl
  | cons a l =>
    rw [put_effect_cons]
    have h₁ : lessUrgent mem task a = false := by
      simpa [lessUrgent] using h a (List.mem_cons_self a l)
    have h₂ : l.any (lessUrgent mem task) = false := by
      rw [List.any_eq_false]
      intro b hb
      simpa [lessUrgent] using h b (List.mem_cons_of_mem a hb)
    simp [h₁, h₂]

theorem mem_eraseP_of_find {p : Nat → Bool} {t a : Nat} :
    ∀ {l : List Nat}, l.find? p = some t → a ∈ l → a ≠ t → a ∈ l.eraseP p := by
  intro l
  induction l with
  | nil => intro e; simp at e
  | cons c l ih =>
    intro e ha hat
    by_cases hp : p c = true
    · rw [List.find?_cons_of_pos _ hp] at e
      cases e
      rw [List.eraseP_cons_of_pos hp]
      rcases List.mem_cons.1 ha with h | h
      · exact absurd h hat
      · exact h
    · rw [List.find?_cons_of_neg _ hp] at e
      rw [List.eraseP_cons_of_neg hp]
      rcases List.mem_cons.1 ha with h | h
      · exact h ▸ List.mem_cons_self _ _
      · exact List.mem_cons_of_mem _ (ih e h hat)

theorem Queues.put_returned {base n n' : Nat} {mem mem₂ : Mem} {h₁ h₂ h₁' : Option Nat}
    {l₁ l₂ : List Nat} (q : Queues base n mem h₁ h₂ l₁ l₂) {fuel task : Nat}
    (ht : task ∉ l₁ ++ l₂) (hn : (mem task).next = none)
    (hb : base ≤ task ∧ task < base + n') (hnn : n ≤ n')
    (e : junkos_put_task_on_list_in_priority_order fuel mem h₁ task = some (mem₂, h₁')) :
    Queues base n' mem₂ h₁' h₂ (put_effect mem task l₁) l₂ ∧ SameData mem mem₂ := by
  obtain ⟨m, h, e', q', hsd⟩ :=
    q.put (max fuel (l₁.length + 1)) task ht hn hb hnn (by omega)
  rw [put_mono (Nat.le_max_left fuel (l₁.length + 1)) e] at e'
  cases e'
  exact ⟨q', hsd⟩

theorem Covered.prio_of_mem {base n p : Nat} {mem : Mem} {h₁ h₂ : Option Nat}
    {l₁ l₂ : List Nat} (c : Covered base n p mem h₁ h₂ l₁ l₂) {a : Nat} (ha : a ∈ l₁ ++ l₂) :
    (mem a).priority = p := by
  have hb := c.queues.inTable a ha
  have := c.prio (a - base) (by omega)
  rwa [show base + (a - base) = a by omega] at this

theorem Covered.exactly_one {base n p : Nat} {mem : Mem} {h₁ h₂ : Option Nat}
    {l₁ l₂ : List Nat} (c : Covered base n p mem h₁ h₂ l₁ l₂) (j : Nat) (hj : j < n) :
    (base + j ∈ l₁ ∧ base + j ∉ l₂) ∨ (base + j ∉ l₁ ∧ base + j ∈ l₂) := by
  have hd := (List.nodup_append.1 c.queues.nodup).2.2
  rcases List.mem_append.1 (c.all j hj) with h | h
  · exact Or.inl ⟨h, fun h' => hd h h'⟩
  · exact Or.inr ⟨fun h' => hd h' h, h⟩

theorem init_loop_cover {fuel base n p : Nat} (hn : n ≤ 255) :
    ∀ (k i : Nat) (mem mem' : Mem) (context context' : junkos_scheduler_context_t)
      (R B : List Nat),
      i ≤ n → Queues base i mem context.task_ready_head context.task_blocked_head R B →
      (∀ j, j < n → (mem (base + j)).priority = p) → (∀ j, j < i → base + j ∈ R ++ B) →
      init_loop fuel k mem context base n i = some (true, mem', context') →
      ∃ R' B', Covered base n p mem' context'.task_ready_head context'.task_blocked_head
        R' B' := by
  intro k
  induction k with
  | zero => intro i mem mem' context context' R B _ _ _ _ e; simp [init_loop] at e
  | succ k ih =>
    intro i mem mem' context context' R B hin q hprio hall e
    by_cases hi : i < n
    · by_cases hrun : (mem (base + i)).run = none
      · simp [init_loop, hi, hrun] at e
      · have ht : base + i ∉ R ++ B := by
          intro h
          have := q.inTable _ h
          omega
        have q0 := q.clear (base + i) ht
        have hsd0 : SameData mem (setNext mem (base + i) none) :=
          (SameData.refl mem).setNext _ _
        have hmod : (i + 1) % 256 = i + 1 := Nat.mod_eq_of_lt (by omega)
        have hb : base ≤ base + i ∧ base + i < base + (i + 1) := by omega
        have hnext : (setNext mem (base + i) none (base + i)).next = none :=
          setNext_next_same _ _ _
        have hp1 : ∀ a ∈ R ++ B, (setNext mem (base + i) none a).priority
            ≤ (setNext mem (base + i) none (base + i)).priority := by
          intro a ha
          have hb := q.inTable a ha
          rw [hsd0.priority, hsd0.priority, hprio i hi]
          have := hprio (a - base) (by omega)
          rw [show base + (a - base) = a by omega] at this
          rw [this]
        by_cases hauto : (setNext mem (base + i) none (base + i)).auto_run = true
        · simp only [init_loop, hi, hrun, hauto, if_true, if_false] at e
          cases hp : junkos_put_task_on_list_in_priority_order fuel
              (setNext mem (base + i) none) context.task_ready_head (base + i) with
          | none => simp [hp] at e
          | some y =>
            obtain ⟨mem₂, rh⟩ := y
            simp only [hp, hmod] at e
            obtain ⟨q₂, hsd₂⟩ := q0.put_returned ht hnext hb (Nat.le_succ i) hp
            rw [put_effect_append (fun a ha => hp1 a (List.mem_append_left _ ha))] at q₂
            refine ih (i + 1) mem₂ mem' { context with task_ready_head := rh } context'
              (R ++ [base + i]) B (by omega) q₂ ?_ ?_ e
            · intro j hj
              rw [(hsd0.trans hsd₂).priority]
              exact hprio j hj
            · intro j hj
              rcases Nat.eq_or_lt_of_le (Nat.le_of_lt_succ hj) with rfl | hlt
              · simp
              · have := hall j hlt
                simp only [List.mem_append] at this ⊢
                tauto
        · simp only [init_loop, hi, hrun, hauto, if_true, if_false, Bool.false_eq_true] at e
          cases hp : junkos_put_task_on_list_in_priority_order fuel
              (setNext mem (base + i) none) context.task_blocked_head (base + i) with
          | none => simp [hp] at e
          | some y =>
            obtain ⟨mem₂, bh⟩ := y
            simp only [hp, hmod] at e
            have ht' : base + i ∉ B ++ R := by
              intro h
              apply ht
              simp only [List.mem_append] at h ⊢
              tauto
            obtain ⟨q₂, hsd₂⟩ := q0.swap.put_returned ht' hnext hb (Nat.le_succ i) hp
            rw [put_effect_append (fun a ha => hp1 a (List.mem_append_right _ ha))] at q₂
            refine ih (i + 1) mem₂ mem' { context with task_blocked_head := bh } context'
              R (B ++ [base + i]) (by omega) q₂.swap ?_ ?_ e
            · intro j hj
              rw [(hsd0.trans hsd₂).priority]
              exact hprio j hj
            · intro j hj
              rcases Nat.eq_or_lt_of_le (Nat.le_of_lt_succ hj) with rfl | hlt
              · simp
              · have := hall j hlt
                simp only [List.mem_append] at this ⊢
                tauto
    · have hi' : i = n := by omega
      subst hi'
      simp only [init_loop, hi, if_false, Option.some.injEq, Prod.mk.injEq, true_and] at e
      obtain ⟨rfl, rfl⟩ := e
      exact ⟨R, B, q, hprio, hall⟩

theorem init_cover {fuel base n p : Nat} {mem mem' : Mem}
    {context context' : junkos_scheduler_context_t}
    (e : junkos_scheduler_init fuel mem context (some base) n = some (true, mem', context'))
    (hprio : ∀ j, j < n → (mem (base + j)).priority = p) :
    ∃ R B, Covered base n p mem' context'.task_ready_head context'.task_blocked_head R B := by
  obtain ⟨base', _, _, hb, hn0, hn, _, _, _, _, _⟩ := init_success e
  unfold junkos_scheduler_init at e
  simp only [hn0, if_false] at e
  cases hl : init_loop fuel fuel mem
      { context with task_table := none, task_table_size := 0, task_ready_head := none,
                     task_blocked_head := none } base n 0 with
  | none => simp [hl] at e
  | some y =>
    obtain ⟨flag, m, c⟩ := y
    cases flag with
    | false => simp [hl] at e
    | true =>
      simp only [hl, Option.some.injEq, Prod.mk.injEq, true_and] at e
      obtain ⟨rfl, rfl⟩ := e
      have q0 : Queues base 0 mem (none : Option Nat) none [] [] :=
        { first := rfl, second := rfl, nodup := List.nodup_nil, asc₁ := List.Pairwise.nil,
          asc₂ := List.Pairwise.nil, inTable := fun a ha => by simp at ha }
      exact init_loop_cover hn fuel 0 mem m _ c [] [] (Nat.zero_le n) q0 hprio
        (fun j hj => by omega) hl

theorem Covered.set_runnable {base n p : Nat} {mem : Mem}
    {context : junkos_scheduler_context_t} {R B : List Nat}
    (c : Covered base n p mem context.task_ready_head context.task_blocked_head R B)
    (fuel task_id : Nat) (hf : n < fuel) :
    ∃ mem' context', junkos_scheduler_set_task_runnable fuel mem context task_id
        = some ((B.find? (hasId mem task_id)).isSome, mem', context') ∧
      Covered base n p mem' context'.task_ready_head context'.task_blocked_head
        (R ++ (B.find? (hasId mem task_id)).toList) (B.eraseP (hasId mem task_id)) ∧
      SameData mem mem' := by
  obtain ⟨mem', context', e, q', hsd, _, _, _⟩ :=
    set_task_runnable_spec c.queues fuel task_id hf
  refine ⟨mem', context', e, ?_, hsd⟩
  have hprio : ∀ j, j < n → (mem' (base + j)).priority = p := by
    intro j hj
    rw [hsd.priority]
    exact c.prio j hj
  cases hfind : B.find? (hasId mem task_id) with
  | none =>
    simp only [ready_after_set_runnable, hfind] at q'
    rw [List.eraseP_of_forall_not (List.find?_eq_none.1 hfind)] at q' ⊢
    simp only [Option.toList_none, List.append_nil]
    exact ⟨q', hprio, c.all⟩
  | some t =>
    have htB : t ∈ B := List.mem_of_find?_eq_some hfind
    have hpt : (mem t).priority = p := c.prio_of_mem (List.mem_append_right _ htB)
    have happ : put_effect mem t R = R ++ [t] := by
      apply put_effect_append
      intro a ha
      rw [c.prio_of_mem (List.mem_append_left _ ha), hpt]
    simp only [ready_after_set_runnable, hfind, happ] at q'
    simp only [Option.toList_some]
    refine ⟨q', hprio, ?_⟩
    intro j hj
    rcases List.mem_append.1 (c.all j hj) with h | h
    · simp [h]
    · by_cases hjt : base + j = t
      · simp [hjt]
      · exact List.mem_append_right _ (mem_eraseP_of_find hfind h hjt)

theorem Covered.iteration {base n p : Nat} {mem : Mem}
    {context : junkos_scheduler_context_t} {R B : List Nat}
    (c : Covered base n p mem context.task_ready_head context.task_blocked_head R B)
    (fuel : Nat) (hf : n < fuel) :
    ∃ mem' context', junkos_scheduler_iteration fuel mem context
        = some (R.head?, mem', context') ∧
      Covered base n p mem' context'.task_ready_head context'.task_blocked_head
        R.tail (B ++ R.head?.toList) ∧
      SameData mem mem' := by
  obtain ⟨mem', context', e, q', hsd, _, _, _⟩ := iteration_spec c.queues fuel hf
  refine ⟨mem', context', e, ?_, hsd⟩
  have hprio : ∀ j, j < n → (mem' (base + j)).priority = p := by
    intro j hj
    rw [hsd.priority]
    exact c.prio j hj
  cases R with
  | nil =>
    simp only [blocked_after_iteration, List.head?_nil, List.tail_nil] at q'
    simp only [List.head?_nil, Option.toList_none, List.append_nil, List.tail_nil]
    exact ⟨q', hprio, c.all⟩
  | cons t R =>
    have hpt : (mem t).priority = p :=
      c.prio_of_mem (List.mem_append_left _ (List.mem_cons_self t R))
    have happ : put_effect mem t B = B ++ [t] := by
      apply put_effect_append
      intro a ha
      rw [c.prio_of_mem (List.mem_append_right _ ha), hpt]
    simp only [blocked_after_iteration, List.head?_cons, List.tail_cons, happ] at q'
    simp only [List.head?_cons, Option.toList_some, List.tail_cons]
    refine ⟨q', hprio, ?_⟩
    intro j hj
    have := c.all j hj
    simp only [List.mem_append, List.mem_cons, List.mem_singleton] at this ⊢
    tauto

theorem run_events_cover {base n p fuel : Nat} :
    ∀ (evs : List junkos_event) {mem mem' : Mem} {context context' : junkos_scheduler_context_t}
      {R B : List Nat},
      Covered base n p mem context.task_ready_head context.task_blocked_head R B →
      run_events fuel evs mem context = some (mem', context') →
      ∃ R' B', Covered base n p mem' context'.task_ready_head context'.task_blocked_head
        R' B' := by
  intro evs
  induction evs with
  | nil =>
    intro mem mem' context context' R B c e
    simp only [run_events, Option.some.injEq, Prod.mk.injEq] at e
    obtain ⟨rfl, rfl⟩ := e
    exact ⟨R, B, c⟩
  | cons ev evs ih =>
    intro mem mem' context context' R B c e
    cases ev with
    | dispatch =>
      simp only [run_events] at e
      cases hs : junkos_scheduler_iteration fuel mem context with
      | none => simp [hs] at e
      | some y =>
        simp only [hs] at e
        obtain ⟨m₂, c₂, e₂, cov₂, _⟩ := c.iteration (max fuel (n + 1)) (by omega)
        rw [iteration_mono (Nat.le_max_left fuel (n + 1)) hs] at e₂
        cases e₂
        exact ih cov₂ e
    | set_runnable task_id =>
      simp only [run_events] at e
      cases hs : junkos_scheduler_set_task_runnable fuel mem context task_id with
      | none => simp [hs] at e
      | some y =>
        simp only [hs] at e
        obtain ⟨m₂, c₂, e₂, cov₂, _⟩ := c.set_runnable (max fuel (n + 1)) task_id (by omega)
        rw [set_task_runnable_mono (Nat.le_max_left fuel (n + 1)) hs] at e₂
        cases e₂
        exact ih cov₂ e

theorem junkos_run_cover {fuel base n p : Nat} {mem₀ mem : Mem}
    {context₀ context : junkos_scheduler_context_t} {evs : List junkos_event}
    (e : junkos_run fuel mem₀ context₀ (some base) n evs = some (mem, context))
    (hprio : ∀ j, j < n → (mem₀ (base + j)).priority = p) :
    ∃ R B, Covered base n p mem context.task_ready_head context.task_blocked_head R B := by
  unfold junkos_run at e
  cases hi : junkos_scheduler_init fuel mem₀ context₀ (some base) n with
  | none => simp [hi] at e
  | some y =>
    obtain ⟨flag, mem₁, context₁⟩ := y
    cases flag with
    | false => simp [hi] at e
    | true =>
      simp only [hi] at e
      obtain ⟨R, B, c⟩ := init_cover hi hprio
      exact run_events_cover evs c e

/-- C20: for a table whose descriptors all have the same priority `p`, in every state
reached from a successful `junkos_scheduler_init` by dispatch-loop iterations and
`junkos_scheduler_set_task_runnable` calls, every descriptor of the table is on exactly one
of the two queues `R` (ready) and `B` (blocked); a `junkos_scheduler_set_task_runnable` call
returns and appends the task it finds on the blocked queue at the tail of the ready queue, a
dispatch-loop iteration returns, takes the head of the ready queue and appends it at the
tail of the blocked queue, and consecutive iterations select the tasks of the ready queue in
its order, which is the order in which they were appended. -/
theorem C20_equal_priority_fifo (fuel base n p : Nat) (mem₀ mem : Mem)
    (context₀ context : junkos_scheduler_context_t) (evs : List junkos_event)
    (h : junkos_run fuel mem₀ context₀ (some base) n evs = some (mem, context))
    (hprio : ∀ i, i < n → (mem₀ (base + i)).priority = p) :
    ∃ R B, IsList mem context.task_ready_head R ∧ IsList mem context.task_blocked_head B ∧
      (∀ i, i < n → (base + i ∈ R ∧ base + i ∉ B) ∨ (base + i ∉ R ∧ base + i ∈ B)) ∧
      ∀ fuel', n < fuel' →
        (∀ task_id, ∃ mem' context',
          junkos_scheduler_set_task_runnable fuel' mem context task_id
            = some ((B.find? (hasId mem task_id)).isSome, mem', context') ∧
          IsList mem' context'.task_ready_head (R ++ (B.find? (hasId mem task_id)).toList) ∧
          IsList mem' context'.task_blocked_head (B.eraseP (hasId mem task_id))) ∧
        (∃ mem' context', junkos_scheduler_iteration fuel' mem context
            = some (R.head?, mem', context') ∧
          IsList mem' context'.task_ready_head R.tail ∧
          IsList mem' context'.task_blocked_head (B ++ R.head?.toList)) ∧
        (∃ mem' context', dispatch_iterations fuel' (R.length + 1) mem context
            = some (R.map some ++ [none], mem', context')) := by
  obtain ⟨R, B, c⟩ := junkos_run_cover h hprio
  refine ⟨R, B, c.queues.first, c.queues.second, c.exactly_one, ?_⟩
  intro fuel' hf
  refine ⟨?_, ?_, ?_⟩
  · intro task_id
    obtain ⟨mem', context', e, c', _⟩ := c.set_runnable fuel' task_id hf
    exact ⟨mem', context', e, c'.queues.first, c'.queues.second⟩
  · obtain ⟨mem', context', e, c', _⟩ := c.iteration fuel' hf
    exact ⟨mem', context', e, c'.queues.first, c'.queues.second⟩
  · have hlen := c.queues.length_le
    obtain ⟨mem', context', e, _, _⟩ :=
      dispatch_iterations_lists fuel' R B mem context c.queues.first c.queues.second
        c.queues.nodup (by omega)
    exact ⟨mem', context', e⟩

/-! ## Witnesses -/

/-- Witness of C11: ready queue `[0, 1]` of priority 1, blocked queue `[2]`. -/
theorem C11_witness :
    (IsList (memOfTable table_two_ready) (some 0) [0, 1] ∧
      IsList (memOfTable table_two_ready) (some 2) [2] ∧
      ∀ a ∈ [0, 1], ∀ b ∈ [0, 1],
        (memOfTable table_two_ready a).priority = (memOfTable table_two_ready b).priority) ∧
    ([0, 1].Nodup ∧
      ∃ mem' context', dispatch_iterations 5 ([0, 1].length + 1) (memOfTable table_two_ready)
          ⟨some 0, 3, some 0, some 2⟩ = some ([0, 1].map some ++ [none], mem', context') ∧
        (∀ a ∈ [0, 1], ∀ b ∈ [0, 1], (mem' a).priority = (mem' b).priority)) :=
  ⟨by decide,
    C11_equal_priority_round 5 (memOfTable table_two_ready) ⟨some 0, 3, some 0, some 2⟩
      [0, 1] [2] (by decide) (by decide) (by decide) (by decide) (by decide)⟩

/-- Witness of C12: the initial context, whose ready queue is empty. -/
theorem C12_witness :
    gbl_context.task_ready_head = none ∧
    junkos_scheduler_iteration 5 (memOfTable junkos_tasks) gbl_context
      = some (none, memOfTable junkos_tasks, gbl_context) :=
  ⟨rfl, C12_idle_iteration 5 (memOfTable junkos_tasks) gbl_context rfl⟩

/-- Witness of C14: the invariant at `five_state`, whose ready queue `[1, 2]` has priorities
3, 5 and whose blocked queue `[0, 3, 4]` has priorities 2, 3, 4; the insertion of the free
task 3 (priority 5) into the queue `[0, 1, 2]` of priorities 1, 3, 4, which gives
`[0, 1, 2, 3]`; the removal of the id 11 from that queue, which gives `[0, 2]`; and pop-head
on that queue. -/
theorem C14_witness :
    ((junkos_run 8 (memOfTable table_five) gbl_context (some 0) 5 five_events
          = some (five_state.1, five_state.2) ∧
        queues 8 five_state.1 five_state.2 = (some [1, 2], some [0, 3, 4]) ∧
        [1, 2].map (fun a => (five_state.1 a).priority) = [3, 5] ∧
        [0, 3, 4].map (fun a => (five_state.1 a).priority) = [2, 3, 4]) ∧
      ∃ R B, IsList five_state.1 five_state.2.task_ready_head R ∧
        IsList five_state.1 five_state.2.task_blocked_head B ∧
        Ascending five_state.1 R ∧ Ascending five_state.1 B) ∧
    ((IsList (memOfTable table_linked_three) (some 0) [0, 1, 2] ∧
        Ascending (memOfTable table_linked_three) [0, 1, 2] ∧
        [0, 1, 2].map (fun a => (memOfTable table_linked_three a).priority) = [1, 3, 4] ∧
        (junkos_put_task_on_list_in_priority_order 8 (memOfTable table_linked_three)
          (some 0) 3).map (fun r => queue 8 r.1 r.2) = some (some [0, 1, 2, 3]) ∧
        (junkos_delete_task_from_list 8 (memOfTable table_linked_three) (some 0) 11).map
          (fun r => (r.1, queue 8 r.2.1 r.2.2)) = some (some 1, some [0, 2])) ∧
      (∃ mem' head' l', junkos_put_task_on_list_in_priority_order 8
          (memOfTable table_linked_three) (some 0) 3 = some (mem', head') ∧
        IsList mem' head' l' ∧ Ascending mem' l') ∧
      (∃ r mem' head' l', junkos_delete_task_from_list 8 (memOfTable table_linked_three)
          (some 0) 11 = some (r, mem', head') ∧
        IsList mem' head' l' ∧ Ascending mem' l') ∧
      (∃ r mem' head' l', junkos_pop_task_off_list_in_priority_order
          (memOfTable table_linked_three) (some 0) = (r, mem', head') ∧
        IsList mem' head' l' ∧ Ascending mem' l')) :=
  ⟨⟨⟨rfl, by decide, by decide, by decide⟩,
      C14_priority_order_invariant.1 8 (memOfTable table_five) five_state.1 gbl_context
        five_state.2 (some 0) 5 five_events rfl⟩,
    ⟨by decide, by decide, by decide, by decide, by decide⟩,
    C14_priority_order_invariant.2.1 8 (memOfTable table_linked_three) (some 0) 3 [0, 1, 2]
      (by decide) (by decide) (by decide) (by decide) (by decide),
    C14_priority_order_invariant.2.2.1 8 (memOfTable table_linked_three) (some 0) 11 [0, 1, 2]
      (by decide) (by decide) (by decide),
    C14_priority_order_invariant.2.2.2 (memOfTable table_linked_three) (some 0) [0, 1, 2]
      (by decide) (by decide)⟩

/-- Witness of C15 at `five_state`: the ready queue is `[1, 2]` and the blocked queue
`[0, 3, 4]`; the `next` links of the tasks 0 to 4 are 3, 2, `NULL`, 4, `NULL`. -/
theorem C15_witness :
    (junkos_run 8 (memOfTable table_five) gbl_context (some 0) 5 five_events
        = some (five_state.1, five_state.2) ∧
      queues 8 five_state.1 five_state.2 = (some [1, 2], some [0, 3, 4]) ∧
      [0, 1, 2, 3, 4].map (fun a => (five_state.1 a).next)
        = [some 3, some 2, none, some 4, none]) ∧
    ∃ R B, IsList five_state.1 five_state.2.task_ready_head R ∧
      IsList five_state.1 five_state.2.task_blocked_head B ∧
      R.Nodup ∧ B.Nodup ∧
      (∀ fuel', 5 < fuel' → queue fuel' five_state.1 five_state.2.task_ready_head = some R ∧
        queue fuel' five_state.1 five_state.2.task_blocked_head = some B) ∧
      (∀ a ∈ R, ∀ b, (five_state.1 a).next = some b → b ∈ R ∧ b ∉ B) ∧
      (∀ a ∈ B, ∀ b, (five_state.1 a).next = some b → b ∈ B ∧ b ∉ R) :=
  ⟨⟨rfl, by decide, by decide⟩,
    C15_queues_acyclic 8 (memOfTable table_five) five_state.1 gbl_context
      five_state.2 (some 0) 5 five_events rfl⟩

/-- Witness of C17 on the queue `[0, 1]` . -/
theorem C17_witness :
    (IsList (memOfTable table_linked_1_3) (some 0) [0, 1] ∧ 0 < 5) ∧
    (∀ a l', [0, 1] = a :: l' →
      junkos_delete_task_from_list 5 (memOfTable table_linked_1_3) (some 0)
          (memOfTable table_linked_1_3 a).id
        = some (junkos_pop_task_off_list_in_priority_order (memOfTable table_linked_1_3)
            (some 0)) ∧
      ∃ mem' head', junkos_pop_task_off_list_in_priority_order (memOfTable table_linked_1_3)
          (some 0) = (some a, mem', head') ∧
        (mem' a).next = none ∧ IsList mem' head' l') ∧
    ([0, 1] = [] → junkos_pop_task_off_list_in_priority_order (memOfTable table_linked_1_3)
        (some 0) = (none, memOfTable table_linked_1_3, none) ∧
      (some 0 : Option Nat) = none) :=
  ⟨by decide, C17_pop_is_delete_of_head 5 (memOfTable table_linked_1_3) (some 0) [0, 1]
    (by decide) (by decide)⟩

/-- Witness of C19 at `main_state` . -/
theorem C19_witness :
    ∃ base R B, (some 0 : Option Nat) = some base ∧ main_state.2.task_table = some base ∧
      main_state.2.task_table_size = 2 ∧
      IsList main_state.1 main_state.2.task_ready_head R ∧
      IsList main_state.1 main_state.2.task_blocked_head B ∧
      (R ++ B).Nodup ∧ (∀ a ∈ R ++ B, ∃ i, i < 2 ∧ a = base + i) ∧
      R.length + B.length ≤ 2 ∧
      ∀ fuel', 2 < fuel' → ∀ ev : junkos_event,
        ∃ mem' context' R' B', run_events fuel' [ev] main_state.1 main_state.2
            = some (mem', context') ∧
          IsList mem' context'.task_ready_head R' ∧ IsList mem' context'.task_blocked_head B' ∧
          R'.length + B'.length ≤ R.length + B.length :=
  C19_no_task_duplicated 5 (memOfTable junkos_tasks) main_state.1 gbl_context
    main_state.2 (some 0) 2 [junkos_event.dispatch, junkos_event.set_runnable 2] rfl

/-- Witness of C20: the table of `main.c`, whose two descriptors have priority 1, at
`main_state` . -/
theorem C20_witness :
    (∀ i, i < 2 → (memOfTable junkos_tasks (0 + i)).priority = 1) ∧
    ∃ R B, IsList main_state.1 main_state.2.task_ready_head R ∧
      IsList main_state.1 main_state.2.task_blocked_head B ∧
      (∀ i, i < 2 → (0 + i ∈ R ∧ 0 + i ∉ B) ∨ (0 + i ∉ R ∧ 0 + i ∈ B)) ∧
      ∀ fuel', 2 < fuel' →
        (∀ task_id, ∃ mem' context',
          junkos_scheduler_set_task_runnable fuel' main_state.1 main_state.2 task_id
            = some ((B.find? (hasId main_state.1 task_id)).isSome, mem', context') ∧
          IsList mem' context'.task_ready_head
            (R ++ (B.find? (hasId main_state.1 task_id)).toList) ∧
          IsList mem' context'.task_blocked_head (B.eraseP (hasId main_state.1 task_id))) ∧
        (∃ mem' context', junkos_scheduler_iteration fuel' main_state.1 main_state.2
            = some (R.head?, mem', context') ∧
          IsList mem' context'.task_ready_head R.tail ∧
          IsList mem' context'.task_blocked_head (B ++ R.head?.toList)) ∧
        (∃ mem' context', dispatch_iterations fuel' (R.length + 1) main_state.1 main_state.2
            = some (R.map some ++ [none], mem', context')) :=
  ⟨by decide,
    C20_equal_priority_fifo 5 0 2 1 (memOfTable junkos_tasks) main_state.1 gbl_context
      main_state.2 [junkos_event.dispatch, junkos_event.set_runnable 2] rfl (by decide)⟩

end JunkOS
